import Mathlib

/-!
# libzmq: atomic counter, crypto-library reference counting, random identities, REQ routing

A shallow embedding of `src/src/atomic_counter.hpp` and `src/src/random.cpp`,
together with a model of the request endpoint whose behaviour the interoperability
tests `src/tests-interop/libzmq/test_spec_req_*.c` exercise.

Machine integers are natural numbers reduced modulo `2^32` at every store.
-/

namespace zmq

/-! ## `atomic_counter.hpp` -/

/-- Number of values of `integer_t` (`typedef uint32_t integer_t`). -/
def INTEGER_MOD : Nat := 2 ^ 32

/-- The counter record: `struct inline_atomic_counter_t`, field `value`. The mutex
field of the mutex build carries no data and is left out. -/
structure inline_atomic_counter_t where
  value : Nat
  deriving DecidableEq, Repr

/-- The implementation selected by the preprocessor block at the top of the header. -/
inductive Variant where
  | WINDOWS
  | INTRINSIC
  | CXX11
  | ATOMIC_H
  | TILE
  | X86
  | ARM
  | MUTEX
  deriving DecidableEq, Repr

/-- Unsigned 32-bit subtraction `a - b`. -/
def usub (a b : Nat) : Nat := (a + (INTEGER_MOD - b % INTEGER_MOD)) % INTEGER_MOD

/-- Unsigned 32-bit negation, the bit pattern of `- ((int32_t) d)` and of `-d`. -/
def uneg (d : Nat) : Nat := (INTEGER_MOD - d % INTEGER_MOD) % INTEGER_MOD

/-- Fetch-and-add on a 32-bit cell: stores the wrapped sum and yields the value that
was there before. It is the meaning of `InterlockedExchangeAdd`, `__atomic_fetch_add`,
`std::atomic::fetch_add`, `lock; xadd` and of the `ldrex`/`add`/`strex` loop. -/
def fetch_add (c : inline_atomic_counter_t) (k : Nat) : Nat × inline_atomic_counter_t :=
  (c.value, { value := (c.value + k) % INTEGER_MOD })

/-- Fetch-and-subtract: `std::atomic::fetch_sub` and the `ldrex`/`sub`/`strex` loop. -/
def fetch_sub (c : inline_atomic_counter_t) (k : Nat) : Nat × inline_atomic_counter_t :=
  (c.value, { value := usub c.value k })

/-- Add-and-fetch: stores the wrapped sum and yields the new value
(`atomic_add_32_nv` of `<atomic.h>`). -/
def atomic_add_32_nv (c : inline_atomic_counter_t) (k : Nat) :
    Nat × inline_atomic_counter_t :=
  ((c.value + k) % INTEGER_MOD, { value := (c.value + k) % INTEGER_MOD })

/-- Subtract-and-fetch: `__atomic_sub_fetch`, yields the new value. -/
def atomic_sub_fetch (c : inline_atomic_counter_t) (k : Nat) :
    Nat × inline_atomic_counter_t :=
  (usub c.value k, { value := usub c.value k })

/-- The tile primitive `arch_atomic_add` of `<arch/atomic.h>`: a fetch-and-add, it
yields the value before the addition. `atomic_add` consumes it that way
(`old_value = arch_atomic_add (...)`). -/
def arch_atomic_add (c : inline_atomic_counter_t) (k : Nat) :
    Nat × inline_atomic_counter_t :=
  fetch_add c k

/-- Embedding of `atomic_set`. -/
def atomic_set (_c : inline_atomic_counter_t) (value_ : Nat) : inline_atomic_counter_t :=
  { value := value_ }

/-- Embedding of `atomic_add`, one branch per `#if`; returns `old_value` and the
counter after the call. In the mutex branch `sync` is read as the counter's own mutex
`counter->sync`. -/
def atomic_add (var : Variant) (counter : inline_atomic_counter_t) (increment_ : Nat) :
    Nat × inline_atomic_counter_t :=
  match var with
  | .WINDOWS => fetch_add counter increment_
  | .INTRINSIC => fetch_add counter increment_
  | .CXX11 => fetch_add counter increment_
  | .ATOMIC_H =>
      let r := atomic_add_32_nv counter increment_
      (usub r.1 increment_, r.2)
  | .TILE => arch_atomic_add counter increment_
  | .X86 => fetch_add counter increment_
  | .ARM => fetch_add counter increment_
  | .MUTEX =>
      let old_value := counter.value
      (old_value, { value := (counter.value + increment_) % INTEGER_MOD })

/-- Embedding of `atomic_sub`, one branch per `#if`; returns the boolean result and
the counter after the call. In the ARM branch the operand `value` is read as
`counter->value`, in the mutex branch `sync` as `counter->sync`. -/
def atomic_sub (var : Variant) (counter : inline_atomic_counter_t) (decrement : Nat) :
    Bool × inline_atomic_counter_t :=
  match var with
  | .WINDOWS =>
      let delta := uneg decrement
      let r := fetch_add counter delta
      (usub r.1 decrement != 0, r.2)
  | .INTRINSIC =>
      let r := atomic_sub_fetch counter decrement
      (r.1 != 0, r.2)
  | .CXX11 =>
      let r := fetch_sub counter decrement
      (usub r.1 decrement != 0, r.2)
  | .ATOMIC_H =>
      let delta := uneg decrement
      let r := atomic_add_32_nv counter delta
      (r.1 != 0, r.2)
  | .TILE =>
      let delta := uneg decrement
      let r := arch_atomic_add counter delta
      (r.1 != 0, r.2)
  | .X86 =>
      let oldval := uneg decrement
      let r := fetch_add counter oldval
      (r.1 != decrement, r.2)
  | .ARM =>
      let r := fetch_sub counter decrement
      (usub r.1 decrement != 0, r.2)
  | .MUTEX =>
      let c1 : inline_atomic_counter_t := { value := usub counter.value decrement }
      (c1.value != 0, c1)

/-- Embedding of `atomic_get`. -/
def atomic_get (counter : inline_atomic_counter_t) : Nat := counter.value

/-- The class `atomic_counter_t`: its one data member. -/
structure atomic_counter_t where
  value : inline_atomic_counter_t
  deriving DecidableEq, Repr

namespace atomic_counter_t

/-- The constructor `atomic_counter_t (integer_t value_ = 0)`; the default argument is
passed explicitly. -/
def new (value_ : Nat) : atomic_counter_t :=
  { value := atomic_set { value := 0 } value_ }

/-- Method `set`. -/
def set (self : atomic_counter_t) (value_ : Nat) : atomic_counter_t :=
  { value := atomic_set self.value value_ }

/-- Method `add`. -/
def add (var : Variant) (self : atomic_counter_t) (increment_ : Nat) :
    Nat × atomic_counter_t :=
  let r := atomic_add var self.value increment_
  (r.1, { value := r.2 })

/-- Method `sub`. -/
def sub (var : Variant) (self : atomic_counter_t) (decrement : Nat) :
    Bool × atomic_counter_t :=
  let r := atomic_sub var self.value decrement
  (r.1, { value := r.2 })

/-- Method `get`. -/
def get (self : atomic_counter_t) : Nat := atomic_get self.value

end atomic_counter_t

/-- The result sequence of `n` successive `sub (1)` calls, with the counter after them. -/
def sub_times (var : Variant) : Nat → atomic_counter_t → List Bool × atomic_counter_t
  | 0, c => ([], c)
  | n + 1, c =>
    let r := c.sub var 1
    let rest := sub_times var n r.2
    (r.1 :: rest.1, rest.2)

/-- The counter after `n` successive `add (1)` calls. -/
def add_times (var : Variant) : Nat → atomic_counter_t → atomic_counter_t
  | 0, c => c
  | n + 1, c => add_times var n (c.add var 1).2

/-! ## `random.cpp` -/

/-- Conversion `(uint32_t) x` of an `int`. -/
def to_uint32 (x : Int) : Nat := (x % (2 ^ 32 : Int)).toNat

/-- The statement `high <<= n` on a `uint32_t`. -/
def shl_uint32 (x n : Nat) : Nat := (x <<< n) % 2 ^ 32

/-- Embedding of `generate_random`. The C library generator is a step function `rand`
on its hidden state; `sizeof_int` is `sizeof (int)`. Returns the value and the
generator state after the call. -/
def generate_random {σ : Type} (rand : σ → Int × σ) (sizeof_int : Nat) (s : σ) : Nat × σ :=
  let r1 := rand s
  let low := to_uint32 r1.1
  let r2 := rand r1.2
  let high := to_uint32 r2.1
  let high := shl_uint32 high (sizeof_int * 8 - 1)
  (high ||| low, r2.2)

/-- A generator that replays a fixed list of draws, then yields 0. -/
def replay : List Int → Int × List Int
  | [] => (0, [])
  | x :: xs => (x, xs)

/-- Number of values of `unsigned int`, the type of `random_refcount` (32 bits). -/
def UINT_MOD : Nat := 2 ^ 32

/-- The two entry points of the crypto library that `random.cpp` calls. -/
inductive LibCall where
  | sodium_init
  | randombytes_close
  deriving DecidableEq, Repr

/-- The file-level state of `random.cpp`: the static `random_refcount`, and the calls
made into the crypto library so far, oldest first. The static mutex `random_sync` is
held for the whole body of each function, so a call is one step on this state. -/
structure RandomState where
  random_refcount : Nat
  calls : List LibCall
  deriving DecidableEq, Repr

/-- How a call ends: it returns, or an assertion aborts the process; either way the
state reached is recorded. -/
inductive Outcome (σ : Type) where
  | returned (s : σ)
  | aborted (s : σ)
  deriving DecidableEq, Repr

/-- The state an outcome carries. -/
def Outcome.state {σ : Type} : Outcome σ → σ
  | .returned s => s
  | .aborted s => s

/-- The state at process start: `static unsigned int random_refcount = 0`. -/
def RandomState.initial : RandomState := { random_refcount := 0, calls := [] }

/-- Embedding of `random_open`. `crypto` selects the branch of the `#if` (libsodium, or
tweetnacl without getrandom); `sodium_init_rc` is what `sodium_init ()` returns if it
is called. Locking the statically initialised mutex succeeds. -/
def random_open (crypto : Bool) (sodium_init_rc : Int) (s : RandomState) :
    Outcome RandomState :=
  if crypto then
    if s.random_refcount = 0 then
      let s1 : RandomState := { s with calls := s.calls ++ [LibCall.sodium_init] }
      if sodium_init_rc ≠ -1 then
        .returned { s1 with random_refcount := (s1.random_refcount + 1) % UINT_MOD }
      else
        .aborted s1
    else
      .returned { s with random_refcount := (s.random_refcount + 1) % UINT_MOD }
  else
    .returned s

/-- Embedding of `random_close`. -/
def random_close (crypto : Bool) (s : RandomState) : Outcome RandomState :=
  if crypto then
    let s1 : RandomState :=
      { s with random_refcount := (s.random_refcount + (UINT_MOD - 1)) % UINT_MOD }
    if s1.random_refcount = 0 then
      .returned { s1 with calls := s1.calls ++ [LibCall.randombytes_close] }
    else
      .returned s1
  else
    .returned s

/-- One call made by the process: `random_open` (with the result `sodium_init` would
give) or `random_close`. -/
inductive Call where
  | open_ (sodium_init_rc : Int)
  | close
  deriving DecidableEq, Repr

/-- Runs one call. -/
def Call.exec (crypto : Bool) (c : Call) (s : RandomState) : Outcome RandomState :=
  match c with
  | .open_ rc => random_open crypto rc s
  | .close => random_close crypto s

/-- Runs a sequence of calls in order; an abort ends the process there. -/
def runCalls (crypto : Bool) : List Call → RandomState → Outcome RandomState
  | [], s => .returned s
  | c :: cs, s =>
    match c.exec crypto s with
    | .returned s1 => runCalls crypto cs s1
    | .aborted s1 => .aborted s1

/-- Number of opens minus number of closes in a sequence of calls. -/
def depth : List Call → Int
  | [] => 0
  | .open_ _ :: cs => 1 + depth cs
  | .close :: cs => -1 + depth cs

/-- Every `sodium_init` in the sequence succeeds. -/
def initsSucceed (cs : List Call) : Prop :=
  ∀ rc, Call.open_ rc ∈ cs → rc ≠ -1

/-- How many times the initializer `sodium_init` has run. -/
def initRuns (s : RandomState) : Nat := s.calls.count LibCall.sodium_init

/-- How many times the teardown `randombytes_close` has run. -/
def teardownRuns (s : RandomState) : Nat := s.calls.count LibCall.randombytes_close

/-! ## Request endpoint

The sources of the request endpoint and of the pipe set are not part of the repository
excerpt; only the tests `test_spec_req_binder.c` and `test_spec_req_connecter.c` are.
The definitions of this section are written from the specification. -/

/-- Modelled from the spec: the identity of a peer (§3, `Peer.identity`), a byte
sequence; the peer record itself is missing from the sources. -/
abbrev Identity := List Nat

/-- Modelled from the spec: a frame (§3, Message), an opaque byte sequence plus a
more-flag; the message type is missing from the sources. -/
structure Frame where
  data : List Nat
  more : Bool
  deriving DecidableEq, Repr

/-- Modelled from the spec: a message (§3), an ordered sequence of frames. -/
abbrev Message := List Frame

/-- Modelled from the spec: the message invariant of §3, at least one frame and only
the last frame has the more-flag cleared. -/
def well_formed : Message → Bool
  | [] => false
  | [f] => !f.more
  | f :: g :: fs => f.more && well_formed (g :: fs)

/-- Modelled from the spec: the delimiter frame (Glossary), a zero-length frame; it is
followed by body frames, so its more-flag is set. -/
def delimiter : Frame := { data := [], more := true }

/-- Modelled from the spec: the peer states of §3. -/
inductive PeerState where
  | Active
  | Draining
  | Terminated
  deriving DecidableEq, Repr

/-- Modelled from the spec: the pipe collaborator (§1 (a), §6), as the endpoint sees
it. `outbound` holds the frames pushed by the endpoint, oldest first; `inbound` the
frames pushed by the transport and not yet popped; `has_room` is what
`probe_writable` answers about the queue being full. -/
structure Pipe where
  outbound : List Frame
  inbound : List Frame
  has_room : Bool
  deriving DecidableEq, Repr

/-- Modelled from the spec: the Peer record of §3. -/
structure Peer where
  identity : Identity
  pipe : Pipe
  state : PeerState
  deriving DecidableEq, Repr

/-- Modelled from the spec: a peer as created when the transport reports a new
connection, with an empty pipe that accepts writes. -/
def Peer.connected (identity : Identity) : Peer :=
  { identity := identity,
    pipe := { outbound := [], inbound := [], has_room := true },
    state := PeerState.Active }

/-- Modelled from the spec: the pipe "currently accepts a write (not full, not
terminated)" (§4.4). -/
def Peer.accepts_write (p : Peer) : Bool :=
  p.pipe.has_room && (p.state != PeerState.Terminated)

/-- Modelled from the spec: frames written to the peer's pipe in one enqueue. -/
def Peer.push (p : Peer) (frames : List Frame) : Peer :=
  { p with pipe := { p.pipe with outbound := p.pipe.outbound ++ frames } }

/-- Modelled from the spec: the transport pushes decoded frames onto the pipe of the
originating peer (§2, data flow). -/
def Peer.arrive (p : Peer) (frames : List Frame) : Peer :=
  { p with pipe := { p.pipe with inbound := p.pipe.inbound ++ frames } }

/-- Modelled from the spec: unread data of a pipe is drained and discarded. -/
def Peer.discard_inbound (p : Peer) : Peer :=
  { p with pipe := { p.pipe with inbound := [] } }

/-- A peer in the state every peer has between two exchanges. -/
def Peer.idle (q : Peer) : Prop :=
  q.accepts_write = true ∧ q.state = PeerState.Active ∧ q.pipe.inbound = []

/-- Modelled from the spec: the PipeSet of §3; the pipe-set source is missing. -/
structure PipeSet where
  peers : List Peer
  cursor : Nat
  deriving DecidableEq, Repr

namespace PipeSet

/-- Modelled from the spec: the pipe set of a new endpoint, no peers. The cursor is 0:
`attach` does not disturb it and it must be below the length once one peer is there. -/
def empty : PipeSet := { peers := [], cursor := 0 }

/-- Modelled from the spec: `attach(peer)` appends to `peers` and does not disturb
`cursor` (§4.4). -/
def attach (ps : PipeSet) (p : Peer) : PipeSet :=
  { peers := ps.peers ++ [p], cursor := ps.cursor }

/-- Modelled from the spec: whether the pipe of the peer at index `i` currently accepts
a write (§4.4). -/
def accepts_at (ps : PipeSet) (i : Nat) : Bool :=
  match ps.peers[i]? with
  | some p => p.accepts_write
  | none => false

/-- Modelled from the spec: `next_writable()` (§4.4). Starting at `cursor` it scans
forward circularly, returns the index of the first peer whose pipe accepts a write and
sets `cursor` to one past that index (mod length); `none` if no peer is writable. -/
def next_writable (ps : PipeSet) : Option (Nat × PipeSet) :=
  let n := ps.peers.length
  match (List.range n).find? (fun off => ps.accepts_at ((ps.cursor + off) % n)) with
  | none => none
  | some off =>
    let i := (ps.cursor + off) % n
    some (i, { ps with cursor := (i + 1) % n })

/-- Modelled from the spec: `find(identity)`, a linear scan (§4.4); yields the index of
the first peer with that identity. -/
def find (identity : Identity) : List Peer → Option Nat
  | [] => none
  | p :: ps => if p.identity = identity then some 0 else (find identity ps).map (· + 1)

end PipeSet

/-- Modelled from the spec: the phases of the request endpoint (§3). -/
inductive Phase where
  | ReadyToSend
  | AwaitingReply
  deriving DecidableEq, Repr

/-- Modelled from the spec: the errors a request endpoint reports (§7). -/
inductive Error where
  | FSM_violation
  | WouldBlock
  | Peer_lost
  | Malformed_reply
  deriving DecidableEq, Repr

/-- Modelled from the spec: the RequestEndpoint state of §3; `last_peer` is the identity
of the peer the request was sent to. The endpoint source is missing. -/
structure RequestEndpoint where
  pipes : PipeSet
  phase : Phase
  last_peer : Identity
  deriving DecidableEq, Repr

/-- Modelled from the spec: pops one complete message, the frames up to and including
the first one whose more-flag is cleared; `none` while no complete message is
buffered. -/
def take_message : List Frame → Option (Message × List Frame)
  | [] => none
  | f :: fs =>
    if f.more then
      match take_message fs with
      | some (m, rest) => some (f :: m, rest)
      | none => none
    else some ([f], fs)

namespace RequestEndpoint

/-- Modelled from the spec: a new endpoint, phase ReadyToSend, no peers. -/
def new : RequestEndpoint :=
  { pipes := PipeSet.empty, phase := Phase.ReadyToSend, last_peer := [] }

/-- Modelled from the spec: a peer is attached to the endpoint's pipe set. -/
def attach (e : RequestEndpoint) (p : Peer) : RequestEndpoint :=
  { e with pipes := e.pipes.attach p }

/-- An endpoint to which one new connection per identity is attached, in list order. -/
def attach_all (e : RequestEndpoint) (ids : List Identity) : RequestEndpoint :=
  ids.foldl (fun e id => e.attach (Peer.connected id)) e

/-- Modelled from the spec: frames from the peer at index `i` arrive on its pipe. -/
def deliver (e : RequestEndpoint) (i : Nat) (frames : List Frame) : RequestEndpoint :=
  match e.pipes.peers[i]? with
  | some p => { e with pipes := { e.pipes with peers := e.pipes.peers.set i (p.arrive frames) } }
  | none => e

/-- Arrivals `(i, frames)` delivered one after the other. -/
def deliver_all (e : RequestEndpoint) (arrivals : List (Nat × List Frame)) :
    RequestEndpoint :=
  arrivals.foldl (fun e a => e.deliver a.1 a.2) e

/-- Modelled from the spec: `send(message)` (§4.5). FSM-violation unless ReadyToSend;
WouldBlock if no peer is writable; otherwise the delimiter and the body frames go to
the chosen pipe in one enqueue, `last_peer` is the chosen peer's identity and the phase
becomes AwaitingReply. -/
def send (e : RequestEndpoint) (message : Message) : Except Error Unit × RequestEndpoint :=
  match e.phase with
  | .AwaitingReply => (.error Error.FSM_violation, e)
  | .ReadyToSend =>
    match e.pipes.next_writable with
    | none => (.error Error.WouldBlock, e)
    | some (i, ps) =>
      match ps.peers[i]? with
      | none => (.error Error.WouldBlock, e)
      | some p =>
        (.ok (),
          { pipes := { ps with peers := ps.peers.set i (p.push (delimiter :: message)) },
            phase := Phase.AwaitingReply,
            last_peer := p.identity })

/-- Modelled from the spec: `recv()` (§4.5). FSM-violation unless AwaitingReply. Data
on the pipe of any peer other than `last_peer` is drained and discarded. Peer-lost if
`last_peer` is gone or no longer active; WouldBlock while no complete message from it
is buffered; otherwise the message is popped, the phase becomes ReadyToSend, and the
result is the body after the empty delimiter, or Malformed-reply if the first frame is
not empty. -/
def recv (e : RequestEndpoint) : Except Error Message × RequestEndpoint :=
  match e.phase with
  | .ReadyToSend => (.error Error.FSM_violation, e)
  | .AwaitingReply =>
    let peers := e.pipes.peers.map
      (fun p => if p.identity = e.last_peer then p else p.discard_inbound)
    let ps : PipeSet := { e.pipes with peers := peers }
    let lost : Except Error Message × RequestEndpoint :=
      (.error Error.Peer_lost, { e with pipes := ps, phase := Phase.ReadyToSend })
    match PipeSet.find e.last_peer peers with
    | none => lost
    | some i =>
      match peers[i]? with
      | none => lost
      | some p =>
        if p.state ≠ PeerState.Active then lost
        else
          match take_message p.pipe.inbound with
          | none => (.error Error.WouldBlock, { e with pipes := ps })
          | some (m, rest) =>
            let p1 : Peer := { p with pipe := { p.pipe with inbound := rest } }
            let e1 : RequestEndpoint :=
              { e with pipes := { ps with peers := peers.set i p1 },
                       phase := Phase.ReadyToSend }
            match m with
            | [] => (.error Error.Malformed_reply, e1)
            | first :: body =>
              if first.data = [] then (.ok body, e1)
              else (.error Error.Malformed_reply, e1)

/-- One request-reply exchange: the request is sent, the peer at index `i` answers
with the delimiter and `reply`, and the reply is received. `none` unless the send
succeeds and the receive returns exactly `reply`. -/
def exchange (e : RequestEndpoint) (i : Nat) (request reply : Message) :
    Option RequestEndpoint :=
  match e.send request with
  | (.ok _, e1) =>
    match (e1.deliver i (delimiter :: reply)).recv with
    | (.ok m, e2) => if m = reply then some e2 else none
    | (.error _, _) => none
  | (.error _, _) => none

/-- Consecutive exchanges: the `k`-th pair `(request, reply)` of the list is answered
by the peer at index `start + k`. -/
def exchanges (e : RequestEndpoint) (start : Nat) :
    List (Message × Message) → Option RequestEndpoint
  | [] => some e
  | (request, reply) :: rest =>
    match e.exchange start request reply with
    | some e1 => exchanges e1 (start + 1) rest
    | none => none

end RequestEndpoint

/-- Whether the crypto library is in the initialized state: its most recent call was
`sodium_init` (and not `randombytes_close`, and not none at all). -/
def initialized (s : RandomState) : Bool :=
  s.calls.getLast? == some LibCall.sodium_init

/-- The message whose body frames carry the given byte sequences in order: the
more-flag is set on every frame except the last. -/
def frames_of : List (List Nat) → Message
  | [] => []
  | [b] => [{ data := b, more := false }]
  | b :: c :: bs => { data := b, more := true } :: frames_of (c :: bs)

namespace RequestEndpoint

end RequestEndpoint

/-- Modelled from the spec: the ReplyRouter state of §3, the pipe set shared with the
request side and the `mandatory` flag. The router source is missing. -/
structure ReplyRouter where
  pipes : PipeSet
  mandatory : Bool
  deriving DecidableEq, Repr

/-- Modelled from the spec: the errors the receive of a reply router reports (§7). -/
inductive RouterError where
  | WouldBlock
  | Malformed_request
  deriving DecidableEq, Repr

/-- Modelled from the spec: whether the pipe of the peer at index `i` is readable, that
is holds a complete message (§4.6, §6 `probe_readable`). -/
def PipeSet.readable_at (ps : PipeSet) (i : Nat) : Bool :=
  match ps.peers[i]? with
  | some p => (take_message p.pipe.inbound).isSome
  | none => false

/-- Modelled from the spec: the rotation of `next_writable` applied to readability
(§4.6): the first readable peer from `cursor` on, circularly, and `cursor` moves one
past it. -/
def PipeSet.next_readable (ps : PipeSet) : Option (Nat × PipeSet) :=
  let n := ps.peers.length
  match (List.range n).find? (fun off => ps.readable_at ((ps.cursor + off) % n)) with
  | none => none
  | some off =>
    let i := (ps.cursor + off) % n
    some (i, { ps with cursor := (i + 1) % n })

namespace ReplyRouter

/-- Modelled from the spec: `recv()` of the reply router (§4.6). It takes the next
readable pipe in round-robin order and pops one message; the identity is the peer's own
and is not on the wire; the leading empty delimiter is stripped and the source identity
is returned with the remaining body frames; Malformed-request if the first frame is not
empty. -/
def recv (r : ReplyRouter) : Except RouterError (Identity × Message) × ReplyRouter :=
  match r.pipes.next_readable with
  | none => (.error RouterError.WouldBlock, r)
  | some (i, ps) =>
    match ps.peers[i]? with
    | none => (.error RouterError.WouldBlock, r)
    | some p =>
      match take_message p.pipe.inbound with
      | none => (.error RouterError.WouldBlock, r)
      | some (m, rest) =>
        let p1 : Peer := { p with pipe := { p.pipe with inbound := rest } }
        let r1 : ReplyRouter := { r with pipes := { ps with peers := ps.peers.set i p1 } }
        match m with
        | [] => (.error RouterError.Malformed_request, r1)
        | first :: body =>
          if first.data = [] then (.ok (p.identity, body), r1)
          else (.error RouterError.Malformed_request, r1)

end ReplyRouter

/-- One call on a counter: `add (k)` or `sub (k)`. -/
inductive CounterOp where
  | add (k : Nat)
  | sub (k : Nat)
  deriving DecidableEq, Repr

/-- The argument of a call. -/
def CounterOp.arg : CounterOp → Nat
  | .add k => k
  | .sub k => k

/-- The change a call asks for: `+k` for `add (k)`, `-k` for `sub (k)`. -/
def CounterOp.delta : CounterOp → Int
  | .add k => k
  | .sub k => -(k : Int)

/-- The counter after one call. -/
def CounterOp.apply (var : Variant) (c : atomic_counter_t) : CounterOp → atomic_counter_t
  | .add k => (c.add var k).2
  | .sub k => (c.sub var k).2

/-- The counter after a list of calls made one after the other. -/
def run_ops (var : Variant) : List CounterOp → atomic_counter_t → atomic_counter_t
  | [], c => c
  | op :: ops, c => run_ops var ops (op.apply var c)

/-- The sum of the changes asked for by a list of calls. -/
def net_delta : List CounterOp → Int
  | [] => 0
  | op :: ops => op.delta + net_delta ops

/-! ## Theorems -/

/-! ### Arithmetic helpers -/

theorem usub_add_cancel (v k : Nat) (hv : v < INTEGER_MOD) (_hk : k < INTEGER_MOD) :
    usub ((v + k) % INTEGER_MOD) k = v := by
  unfold usub INTEGER_MOD at *
  omega

theorem add_uneg (v k : Nat) (_hv : v < INTEGER_MOD) (_hk : k < INTEGER_MOD) :
    (v + uneg k) % INTEGER_MOD = usub v k := by
  unfold usub uneg INTEGER_MOD at *
  omega

theorem usub_eq_zero_iff (v k : Nat) (hv : v < INTEGER_MOD) (hk : k < INTEGER_MOD) :
    usub v k = 0 ↔ v = k := by
  unfold usub INTEGER_MOD at *
  omega

theorem usub_of_le (v k : Nat) (hv : v < INTEGER_MOD) (hkv : k ≤ v) :
    usub v k = v - k := by
  unfold usub INTEGER_MOD at *
  omega


/-! ### Atomic counter -/

theorem atomic_add_eq (var : Variant) (v k : Nat) (hv : v < INTEGER_MOD)
    (hk : k < INTEGER_MOD) :
    atomic_add var { value := v } k = (v, { value := (v + k) % INTEGER_MOD }) := by
  cases var <;>
    simp [atomic_add, fetch_add, arch_atomic_add, atomic_add_32_nv, usub_add_cancel v k hv hk]

/-- Every implementation other than the tile one: the counter ends at `(v - k) mod 2^32`
and the result says whether that value is nonzero. -/
theorem atomic_sub_eq_of_ne_tile (var : Variant) (hvar : var ≠ Variant.TILE) (v k : Nat)
    (hv : v < INTEGER_MOD) (hk : k < INTEGER_MOD) :
    atomic_sub var { value := v } k = (usub v k != 0, { value := usub v k }) := by
  have h1 := add_uneg v k hv hk
  have h2 := usub_eq_zero_iff v k hv hk
  cases var
  case TILE => exact absurd rfl hvar
  case WINDOWS => simp [atomic_sub, fetch_add, h1]
  case INTRINSIC => simp [atomic_sub, atomic_sub_fetch]
  case CXX11 => simp [atomic_sub, fetch_sub]
  case ATOMIC_H => simp [atomic_sub, atomic_add_32_nv, h1]
  case X86 =>
    simp only [atomic_sub, fetch_add, h1, Prod.mk.injEq, and_true]
    rw [Bool.eq_iff_iff]
    simp only [bne_iff_ne, ne_eq, h2]
  case ARM => simp [atomic_sub, fetch_sub]
  case MUTEX => simp [atomic_sub]

/-- The tile implementation: the counter ends at `(v - k) mod 2^32`, but the result
tests the value before the subtraction. -/
theorem atomic_sub_tile_eq (v k : Nat) (hv : v < INTEGER_MOD) (hk : k < INTEGER_MOD) :
    atomic_sub Variant.TILE { value := v } k = (v != 0, { value := usub v k }) := by
  simp [atomic_sub, arch_atomic_add, fetch_add, add_uneg v k hv hk]

theorem counter_sub_one_of_ne_tile (var : Variant) (hvar : var ≠ Variant.TILE) (m : Nat)
    (hm : m + 1 < INTEGER_MOD) :
    atomic_counter_t.sub var { value := { value := m + 1 } } 1
      = (decide (m ≠ 0), { value := { value := m } }) := by
  have h1 : (1 : Nat) < INTEGER_MOD := by unfold INTEGER_MOD; omega
  have h2 : usub (m + 1) 1 = m := by
    rw [usub_of_le (m + 1) 1 hm (by omega)]
    omega
  simp only [atomic_counter_t.sub, atomic_sub_eq_of_ne_tile var hvar (m + 1) 1 hm h1, h2]
  by_cases h0 : m = 0 <;> simp [h0]

theorem sub_times_of_ne_tile (var : Variant) (hvar : var ≠ Variant.TILE) (m : Nat)
    (hm : m + 1 < INTEGER_MOD) :
    sub_times var (m + 1) { value := { value := m + 1 } }
      = (List.replicate m true ++ [false], { value := { value := 0 } }) := by
  induction m with
  | zero =>
    simp [sub_times, counter_sub_one_of_ne_tile var hvar 0 hm]
  | succ m ih =>
    have hm1 : m + 1 < INTEGER_MOD := by omega
    rw [sub_times, counter_sub_one_of_ne_tile var hvar (m + 1) hm]
    simp only [ih hm1]
    simp [List.replicate_succ]

theorem add_times_eq (var : Variant) (n v : Nat) (h : v + n < INTEGER_MOD) :
    add_times var n { value := { value := v } } = { value := { value := v + n } } := by
  induction n generalizing v with
  | zero => simp [add_times]
  | succ n ih =>
    have hv : v < INTEGER_MOD := by omega
    have h1 : (1 : Nat) < INTEGER_MOD := by unfold INTEGER_MOD; omega
    have hmod : (v + 1) % INTEGER_MOD = v + 1 := Nat.mod_eq_of_lt (by omega)
    simp only [add_times, atomic_counter_t.add, atomic_add_eq var v 1 hv h1, hmod]
    rw [ih (v + 1) (by omega)]
    congr 2
    omega

/-- Ownership counting in every implementation other than the tile one: a counter
brought to `n >= 1` by `set (n)` or by `n` calls of `add (1)` from zero answers `n`
successive `sub (1)` calls with `true` `n - 1` times and then `false`, and reads 0. -/
theorem refcount_release_of_ne_tile (var : Variant) (hvar : var ≠ Variant.TILE) (n : Nat)
    (h1 : 1 ≤ n) (hn : n < 2 ^ 32) :
    add_times var n (atomic_counter_t.new 0) = (atomic_counter_t.new 0).set n ∧
    sub_times var n ((atomic_counter_t.new 0).set n)
      = (List.replicate (n - 1) true ++ [false], atomic_counter_t.new 0) ∧
    (sub_times var n ((atomic_counter_t.new 0).set n)).2.get = 0 := by
  obtain ⟨m, rfl⟩ : ∃ m, n = m + 1 := ⟨n - 1, by omega⟩
  have hm : m + 1 < INTEGER_MOD := hn
  have hs := sub_times_of_ne_tile var hvar m hm
  have ha := add_times_eq var (m + 1) 0 (by omega)
  simp only [atomic_counter_t.new, atomic_counter_t.set, atomic_set, Nat.zero_add] at *
  refine ⟨ha, ?_, ?_⟩
  · simpa using hs
  · rw [hs]
    rfl

/-- C1: for every 32-bit counter value `v` and increment `k`, in every implementation
of the header, `atomic_add` and `atomic_counter_t::add` return `v`, the value before
the addition, and leave the counter holding `(v + k) mod 2^32`. -/
theorem atomic_add_returns_old_value (var : Variant) (v k : Nat)
    (hv : v < 2 ^ 32) (hk : k < 2 ^ 32) :
    atomic_add var { value := v } k = (v, { value := (v + k) % 2 ^ 32 }) ∧
    atomic_counter_t.add var { value := { value := v } } k
      = (v, { value := { value := (v + k) % 2 ^ 32 } }) ∧
    (atomic_counter_t.add var { value := { value := v } } k).2.get = (v + k) % 2 ^ 32 := by
  have h := atomic_add_eq var v k hv hk
  simp only [INTEGER_MOD] at h
  simp [atomic_counter_t.add, atomic_counter_t.get, atomic_get, h]

theorem atomic_add_returns_old_value_witness :
    atomic_add Variant.ATOMIC_H { value := 4294967295 } 7 = (4294967295, { value := 6 }) ∧
    atomic_counter_t.add Variant.ATOMIC_H { value := { value := 4294967295 } } 7
      = (4294967295, { value := { value := 6 } }) ∧
    (atomic_counter_t.add Variant.ATOMIC_H { value := { value := 4294967295 } } 7).2.get
      = 6 :=
  atomic_add_returns_old_value Variant.ATOMIC_H 4294967295 7 (by norm_num) (by norm_num)

/-- C2: in the tile implementation, `sub (1)` on a counter holding 1 leaves the counter
at 0 and still returns `true`, where the counter has dropped to zero: the result tests
the value `arch_atomic_add` fetched, which is the value before the subtraction. -/
theorem atomic_sub_tile_drop_to_zero :
    atomic_sub Variant.TILE { value := 1 } 1 = (true, { value := 0 }) ∧
    atomic_counter_t.sub Variant.TILE { value := { value := 1 } } 1
      = (true, { value := { value := 0 } }) := by
  have h := atomic_sub_tile_eq 1 1 (by unfold INTEGER_MOD; omega) (by unfold INTEGER_MOD; omega)
  have h2 : usub 1 1 = 0 := by unfold usub INTEGER_MOD; omega
  simp [atomic_counter_t.sub, h, h2]

/-- C3: in the tile implementation, a counter set to 1 (one owner) answers the single,
last `sub (1)` with `true` although it then reads 0. -/
theorem refcount_release_tile_last_owner :
    sub_times Variant.TILE 1 ((atomic_counter_t.new 0).set 1)
      = ([true], atomic_counter_t.new 0) ∧
    (sub_times Variant.TILE 1 ((atomic_counter_t.new 0).set 1)).2.get = 0 := by
  have h := atomic_sub_tile_eq 1 1 (by unfold INTEGER_MOD; omega) (by unfold INTEGER_MOD; omega)
  have h2 : usub 1 1 = 0 := by unfold usub INTEGER_MOD; omega
  simp [sub_times, atomic_counter_t.sub, atomic_counter_t.new, atomic_counter_t.set,
    atomic_set, atomic_counter_t.get, atomic_get, h, h2]

/-! ### Crypto-library reference counting -/

theorem random_open_of_pos (rc : Int) (s : RandomState) (h : s.random_refcount ≠ 0) :
    random_open true rc s
      = .returned { s with random_refcount := (s.random_refcount + 1) % UINT_MOD } := by
  simp [random_open, h]

theorem random_open_of_zero (rc : Int) (s : RandomState) (h : s.random_refcount = 0)
    (hrc : rc ≠ -1) :
    random_open true rc s
      = .returned { random_refcount := 1, calls := s.calls ++ [LibCall.sodium_init] } := by
  simp [random_open, h, hrc, UINT_MOD]

theorem random_open_abort (s : RandomState) (h : s.random_refcount = 0) :
    random_open true (-1) s
      = .aborted { random_refcount := 0, calls := s.calls ++ [LibCall.sodium_init] } := by
  simp [random_open, h]

theorem random_close_eq (s : RandomState) :
    random_close true s
      = .returned
          { random_refcount := (s.random_refcount + (UINT_MOD - 1)) % UINT_MOD,
            calls := if (s.random_refcount + (UINT_MOD - 1)) % UINT_MOD = 0
              then s.calls ++ [LibCall.randombytes_close] else s.calls } := by
  unfold random_close
  by_cases h : (s.random_refcount + (UINT_MOD - 1)) % UINT_MOD = 0 <;> simp [h]

/-- C4: in the crypto build, `random_open` runs `sodium_init` if and only if the
reference count was 0 before the call (and never runs the teardown); unless that
initializer fails, the call returns with the count incremented by one as an
`unsigned int`, that is `count + 1` whenever this fits in 32 bits. -/
theorem random_open_increments_and_inits_iff_zero (rc : Int) (s : RandomState) :
    ((random_open true rc s).state.calls
        = if s.random_refcount = 0 then s.calls ++ [LibCall.sodium_init] else s.calls) ∧
    (initRuns (random_open true rc s).state = initRuns s + 1 ↔ s.random_refcount = 0) ∧
    (initRuns (random_open true rc s).state = initRuns s ↔ s.random_refcount ≠ 0) ∧
    teardownRuns (random_open true rc s).state = teardownRuns s ∧
    (¬ (s.random_refcount = 0 ∧ rc = -1) →
      ∃ s1, random_open true rc s = .returned s1 ∧
        s1.random_refcount = (s.random_refcount + 1) % 2 ^ 32 ∧
        (s.random_refcount + 1 < 2 ^ 32 → s1.random_refcount = s.random_refcount + 1)) := by
  have hmod : ∀ n, n + 1 < 2 ^ 32 → (n + 1) % 2 ^ 32 = n + 1 := fun n hn =>
    Nat.mod_eq_of_lt hn
  by_cases h0 : s.random_refcount = 0
  · by_cases hrc : rc = -1
    · subst hrc
      simp [random_open_abort s h0, Outcome.state, initRuns, teardownRuns, h0,
        List.count_append]
    · simp [random_open_of_zero rc s h0 hrc, Outcome.state, initRuns, teardownRuns, h0,
        hrc, List.count_append]
  · simp only [random_open_of_pos rc s h0, Outcome.state, initRuns, teardownRuns, h0,
      UINT_MOD]
    refine ⟨by simp, by simp, by simpa using h0, trivial, ?_⟩
    intro _
    exact ⟨_, rfl, rfl, fun hlt => hmod _ hlt⟩

theorem random_open_increments_and_inits_iff_zero_witness :
    ∃ s1, random_open true 0 { random_refcount := 2, calls := [LibCall.sodium_init] }
        = .returned s1 ∧
      s1.random_refcount = (2 + 1) % 2 ^ 32 ∧
      (2 + 1 < 2 ^ 32 → s1.random_refcount = 2 + 1) :=
  (random_open_increments_and_inits_iff_zero 0
    { random_refcount := 2, calls := [LibCall.sodium_init] }).2.2.2.2
    (by simp)

/-- C5: in the crypto build, `random_close` always returns, with the reference count
decremented by one as an `unsigned int` (`count - 1` whenever the count was positive),
and it runs `randombytes_close` if and only if the count is 0 after the decrement; it
never runs the initializer. -/
theorem random_close_decrements_and_closes_iff_zero (s : RandomState)
    (hs : s.random_refcount < 2 ^ 32) :
    ∃ s1, random_close true s = .returned s1 ∧
      s1.random_refcount = (s.random_refcount + (2 ^ 32 - 1)) % 2 ^ 32 ∧
      (1 ≤ s.random_refcount → s1.random_refcount = s.random_refcount - 1) ∧
      (s1.calls = if s1.random_refcount = 0
        then s.calls ++ [LibCall.randombytes_close] else s.calls) ∧
      (teardownRuns s1 = teardownRuns s + 1 ↔ s1.random_refcount = 0) ∧
      (teardownRuns s1 = teardownRuns s ↔ s1.random_refcount ≠ 0) ∧
      initRuns s1 = initRuns s := by
  refine ⟨_, random_close_eq s, by simp only [UINT_MOD], ?_, by simp only, ?_, ?_, ?_⟩
  · intro h1
    simp only [UINT_MOD]
    omega
  · by_cases h : (s.random_refcount + (UINT_MOD - 1)) % UINT_MOD = 0 <;>
      simp [teardownRuns, h, List.count_append]
  · by_cases h : (s.random_refcount + (UINT_MOD - 1)) % UINT_MOD = 0 <;>
      simp [teardownRuns, h, List.count_append]
  · by_cases h : (s.random_refcount + (UINT_MOD - 1)) % UINT_MOD = 0 <;>
      simp [initRuns, h, List.count_append]

theorem random_close_decrements_and_closes_iff_zero_witness :
    ∃ s1, random_close true { random_refcount := 1, calls := [LibCall.sodium_init] }
        = .returned s1 ∧
      s1.random_refcount = (1 + (2 ^ 32 - 1)) % 2 ^ 32 ∧
      (1 ≤ 1 → s1.random_refcount = 1 - 1) ∧
      (s1.calls = if s1.random_refcount = 0
        then [LibCall.sodium_init] ++ [LibCall.randombytes_close]
        else [LibCall.sodium_init]) ∧
      (teardownRuns s1 = teardownRuns ⟨1, [LibCall.sodium_init]⟩ + 1
        ↔ s1.random_refcount = 0) ∧
      (teardownRuns s1 = teardownRuns ⟨1, [LibCall.sodium_init]⟩
        ↔ s1.random_refcount ≠ 0) ∧
      initRuns s1 = initRuns ⟨1, [LibCall.sodium_init]⟩ :=
  random_close_decrements_and_closes_iff_zero ⟨1, [LibCall.sodium_init]⟩ (by norm_num)

/-- C7: at reference count 0, `random_open` whose `sodium_init` returns -1 aborts on
the assertion with the count still 0 (the initializer has been called); for every other
result of `sodium_init` the call returns and the count is 1. -/
theorem random_open_init_failure_is_fatal (calls : List LibCall) :
    random_open true (-1) { random_refcount := 0, calls := calls }
      = .aborted { random_refcount := 0, calls := calls ++ [LibCall.sodium_init] } ∧
    ∀ rc : Int, rc ≠ -1 →
      random_open true rc { random_refcount := 0, calls := calls }
        = .returned { random_refcount := 1, calls := calls ++ [LibCall.sodium_init] } :=
  ⟨random_open_abort _ rfl, fun rc hrc => random_open_of_zero rc _ rfl hrc⟩

theorem random_open_init_failure_is_fatal_witness :
    random_open true 1 { random_refcount := 0, calls := [] }
      = .returned { random_refcount := 1, calls := [] ++ [LibCall.sodium_init] } :=
  (random_open_init_failure_is_fatal []).2 1 (by decide)

/-! ### Random identities -/

theorem to_uint32_of_nonneg (x : Int) (h0 : 0 ≤ x) (h1 : x < 2 ^ 31) :
    to_uint32 x = x.toNat := by
  unfold to_uint32
  omega

theorem shl_or_eq_add (a b : Nat) (ha : a < 2 ^ 31) :
    shl_uint32 b 31 ||| a = 2 ^ 31 * (b % 2) + a := by
  have h : shl_uint32 b 31 = 2 ^ 31 * (b % 2) := by
    unfold shl_uint32
    rw [Nat.shiftLeft_eq]
    omega
  rw [h]
  exact (Nat.mul_add_lt_is_or ha (b % 2)).symm

/-- C8: with a 4-byte `int`, `generate_random` draws twice from the generator, `a` then
`b` (the generator is left in the state after the second draw), and returns the 32-bit
value `((b << 31) mod 2^32) | a`; its low 31 bits are `a` and its top bit is the low
bit of `b`. The draws are values of `rand ()`, between 0 and `RAND_MAX <= 2^31 - 1`. -/
theorem generate_random_combines_two_draws {σ : Type} (rand : σ → Int × σ) (s : σ)
    (ha : 0 ≤ (rand s).1 ∧ (rand s).1 < 2 ^ 31)
    (hb : 0 ≤ (rand (rand s).2).1 ∧ (rand (rand s).2).1 < 2 ^ 31) :
    generate_random rand 4 s
      = ((((rand (rand s).2).1.toNat <<< 31) % 2 ^ 32) ||| (rand s).1.toNat,
          (rand (rand s).2).2) ∧
    (generate_random rand 4 s).1 < 2 ^ 32 ∧
    (generate_random rand 4 s).1 % 2 ^ 31 = (rand s).1.toNat ∧
    (generate_random rand 4 s).1 / 2 ^ 31 = (rand (rand s).2).1.toNat % 2 := by
  have e1 := to_uint32_of_nonneg _ ha.1 ha.2
  have e2 := to_uint32_of_nonneg _ hb.1 hb.2
  have hlt : (rand s).1.toNat < 2 ^ 31 := by omega
  have hor := shl_or_eq_add (rand s).1.toNat (rand (rand s).2).1.toNat hlt
  have hval : (generate_random rand 4 s).1
      = 2 ^ 31 * ((rand (rand s).2).1.toNat % 2) + (rand s).1.toNat := by
    simp only [generate_random, e1, e2]
    exact hor
  refine ⟨?_, ?_, ?_, ?_⟩
  · simp only [generate_random, e1, e2]
    rfl
  · rw [hval]; omega
  · rw [hval]; omega
  · rw [hval]; omega

theorem generate_random_combines_two_draws_witness :
    generate_random replay 4 [5, 3, 9]
      = ((((replay (replay [5, 3, 9]).2).1.toNat <<< 31) % 2 ^ 32)
            ||| (replay [5, 3, 9]).1.toNat,
          (replay (replay [5, 3, 9]).2).2) ∧
    (generate_random replay 4 [5, 3, 9]).1 < 2 ^ 32 ∧
    (generate_random replay 4 [5, 3, 9]).1 % 2 ^ 31 = (replay [5, 3, 9]).1.toNat ∧
    (generate_random replay 4 [5, 3, 9]).1 / 2 ^ 31
      = (replay (replay [5, 3, 9]).2).1.toNat % 2 :=
  generate_random_combines_two_draws replay [5, 3, 9]
    (by simp [replay]) (by simp [replay])

/-! ### Sequences of `random_open` / `random_close` -/

theorem depth_append (a b : List Call) : depth (a ++ b) = depth a + depth b := by
  induction a with
  | nil => simp [depth]
  | cons c a ih =>
    cases c <;> simp [depth, ih] <;> omega

theorem runCalls_cons_returned (c : Call) (cs : List Call) (s s1 : RandomState)
    (h : c.exec true s = .returned s1) :
    runCalls true (c :: cs) s = runCalls true cs s1 := by
  rw [runCalls, h]

theorem runCalls_append_returned (a b : List Call) (s s1 : RandomState)
    (h : runCalls true a s = .returned s1) :
    runCalls true (a ++ b) s = runCalls true b s1 := by
  induction a generalizing s with
  | nil =>
    rw [runCalls] at h
    cases h
    rfl
  | cons c a ih =>
    rw [List.cons_append]
    rw [runCalls] at h ⊢
    generalize hc : c.exec true s = o at h ⊢
    cases o with
    | returned s2 =>
      exact ih s2 h
    | aborted s2 =>
      cases h

theorem random_close_of_gt_one (s : RandomState) (h2 : 2 ≤ s.random_refcount)
    (hlt : s.random_refcount < UINT_MOD) :
    random_close true s
      = .returned { random_refcount := s.random_refcount - 1, calls := s.calls } := by
  have hstep : (s.random_refcount + (UINT_MOD - 1)) % UINT_MOD
      = s.random_refcount - 1 := by
    unfold UINT_MOD at *; omega
  have hne : s.random_refcount - 1 ≠ 0 := by omega
  rw [random_close_eq, hstep, if_neg hne]

theorem random_close_of_one (s : RandomState) (h1 : s.random_refcount = 1) :
    random_close true s
      = .returned { random_refcount := 0,
                    calls := s.calls ++ [LibCall.randombytes_close] } := by
  have hstep : (s.random_refcount + (UINT_MOD - 1)) % UINT_MOD = 0 := by
    rw [h1]; unfold UINT_MOD; omega
  rw [random_close_eq, hstep, if_pos rfl]

/-- While the count stays between 1 and `2^32 - 1`, a run of calls touches the crypto
library not at all and the count follows opens minus closes. -/
theorem runCalls_positive (cs : List Call) (s : RandomState)
    (h : ∀ k, k ≤ cs.length →
      1 ≤ (s.random_refcount : Int) + depth (cs.take k) ∧
      (s.random_refcount : Int) + depth (cs.take k) < 2 ^ 32) :
    runCalls true cs s
      = .returned { random_refcount := ((s.random_refcount : Int) + depth cs).toNat,
                    calls := s.calls } := by
  induction cs generalizing s with
  | nil => simp [runCalls, depth]
  | cons c cs ih =>
    have h0 := h 0 (Nat.zero_le _)
    have h1 := h 1 (by simp)
    simp only [List.take_zero, depth, add_zero] at h0
    have hpos : s.random_refcount ≠ 0 := by omega
    cases c with
    | open_ rc =>
      simp only [List.take_succ_cons, List.take_zero, depth] at h1
      have hstep : (s.random_refcount + 1) % UINT_MOD = s.random_refcount + 1 := by
        unfold UINT_MOD; omega
      have hexec : (Call.open_ rc).exec true s
          = .returned { random_refcount := s.random_refcount + 1, calls := s.calls } := by
        rw [Call.exec, random_open_of_pos rc s hpos, hstep]
      rw [runCalls_cons_returned _ _ _ _ hexec, ih]
      · simp only [depth]
        congr 2
        push_cast
        omega
      · intro k hk
        have := h (k + 1) (by simpa using hk)
        simp only [List.take_succ_cons, depth] at this
        push_cast
        omega
    | close =>
      simp only [List.take_succ_cons, List.take_zero, depth] at h1
      have hexec : Call.close.exec true s
          = .returned { random_refcount := s.random_refcount - 1, calls := s.calls } := by
        rw [Call.exec, random_close_of_gt_one s (by omega) (by unfold UINT_MOD; omega)]
      have hcast : ((s.random_refcount - 1 : Nat) : Int) = (s.random_refcount : Int) - 1 := by
        omega
      rw [runCalls_cons_returned _ _ _ _ hexec, ih]
      · have hd : ((s.random_refcount - 1 : Nat) : Int) + depth cs
            = (s.random_refcount : Int) + depth (Call.close :: cs) := by
          simp only [depth]
          omega
        dsimp only
        rw [hd]
      · intro k hk
        have := h (k + 1) (by simpa using hk)
        simp only [List.take_succ_cons, depth] at this
        dsimp only
        omega

/-- C6 as stated fails: open, close, open, close is a sequence in which every close is
preceded by a matching open (no prefix has more closes than opens) and the count ends
at 0, yet the initializer runs twice and the teardown runs twice. -/
theorem init_runs_twice_on_reopen :
    (∀ k, k ≤ [Call.open_ 0, Call.close, Call.open_ 0, Call.close].length →
      0 ≤ depth ([Call.open_ 0, Call.close, Call.open_ 0, Call.close].take k)) ∧
    depth [Call.open_ 0, Call.close, Call.open_ 0, Call.close] = 0 ∧
    runCalls true [Call.open_ 0, Call.close, Call.open_ 0, Call.close] RandomState.initial
      = .returned
          { random_refcount := 0,
            calls := [LibCall.sodium_init, LibCall.randombytes_close,
                      LibCall.sodium_init, LibCall.randombytes_close] } ∧
    initRuns (runCalls true [Call.open_ 0, Call.close, Call.open_ 0, Call.close]
      RandomState.initial).state = 2 ∧
    teardownRuns (runCalls true [Call.open_ 0, Call.close, Call.open_ 0, Call.close]
      RandomState.initial).state = 2 := by
  have he1 : (Call.open_ 0).exec true RandomState.initial
      = .returned { random_refcount := 1, calls := [LibCall.sodium_init] } := by
    rw [Call.exec]
    exact random_open_of_zero 0 _ rfl (by decide)
  have he2 : Call.close.exec true { random_refcount := 1, calls := [LibCall.sodium_init] }
      = .returned { random_refcount := 0,
                    calls := [LibCall.sodium_init, LibCall.randombytes_close] } := by
    rw [Call.exec]
    exact random_close_of_one _ rfl
  have he3 : (Call.open_ 0).exec true
        { random_refcount := 0,
          calls := [LibCall.sodium_init, LibCall.randombytes_close] }
      = .returned { random_refcount := 1,
                    calls := [LibCall.sodium_init, LibCall.randombytes_close,
                              LibCall.sodium_init] } := by
    rw [Call.exec]
    exact random_open_of_zero 0 _ rfl (by decide)
  have he4 : Call.close.exec true
        { random_refcount := 1,
          calls := [LibCall.sodium_init, LibCall.randombytes_close, LibCall.sodium_init] }
      = .returned { random_refcount := 0,
                    calls := [LibCall.sodium_init, LibCall.randombytes_close,
                              LibCall.sodium_init, LibCall.randombytes_close] } := by
    rw [Call.exec]
    exact random_close_of_one _ rfl
  have hrun : runCalls true [Call.open_ 0, Call.close, Call.open_ 0, Call.close]
      RandomState.initial
      = .returned
          { random_refcount := 0,
            calls := [LibCall.sodium_init, LibCall.randombytes_close,
                      LibCall.sodium_init, LibCall.randombytes_close] } := by
    rw [runCalls_cons_returned _ _ _ _ he1, runCalls_cons_returned _ _ _ _ he2,
      runCalls_cons_returned _ _ _ _ he3, runCalls_cons_returned _ _ _ _ he4, runCalls]
  refine ⟨?_, by simp [depth], hrun, ?_, ?_⟩
  · intro k hk
    simp only [List.length_cons, List.length_nil] at hk
    interval_cases k <;> simp [depth]
  · rw [hrun]; simp [Outcome.state, initRuns]
  · rw [hrun]; simp [Outcome.state, teardownRuns]

/-- C6, amended: for a non-empty sequence of `random_open` / `random_close` calls made
from process start, in which the count (opens minus closes) is positive after every
call but the last, stays below `2^32`, and is 0 at the end, and in which `sodium_init`
does not fail: the run completes with reference count 0, the initializer has run exactly
once and the teardown exactly once, however many calls are made. -/
theorem init_and_teardown_once_per_session (cs : List Call) (hne : cs ≠ [])
    (hinit : initsSucceed cs) (hend : depth cs = 0)
    (hpos : ∀ k, 0 < k → k < cs.length →
      0 < depth (cs.take k) ∧ depth (cs.take k) < 2 ^ 32) :
    ∃ s, runCalls true cs RandomState.initial = .returned s ∧
      s.random_refcount = 0 ∧
      s.calls = [LibCall.sodium_init, LibCall.randombytes_close] ∧
      initRuns s = 1 ∧ teardownRuns s = 1 := by
  obtain ⟨c, rest, rfl⟩ := List.exists_cons_of_ne_nil hne
  rcases List.eq_nil_or_concat rest with hnil | ⟨mid, last, hrest⟩
  · subst hnil
    cases c <;> simp [depth] at hend
  · rw [List.concat_eq_append] at hrest
    subst hrest
    have hlen : (c :: (mid ++ [last])).length = mid.length + 2 := by simp
    have h1 := hpos 1 (by omega) (by omega)
    have hpre := hpos (mid.length + 1) (by omega) (by omega)
    have htake : (c :: (mid ++ [last])).take (mid.length + 1) = c :: mid := by
      simp
    rw [htake] at hpre
    have hsplit : depth (c :: (mid ++ [last])) = depth (c :: mid) + depth [last] := by
      have : c :: (mid ++ [last]) = (c :: mid) ++ [last] := by simp
      rw [this, depth_append]
    cases c with
    | close => simp [depth] at h1
    | open_ rc =>
      have hrc : rc ≠ -1 := hinit rc (by simp)
      cases last with
      | open_ rc2 =>
        rw [hsplit] at hend
        simp only [depth] at hend hpre
        omega
      | close =>
        rw [hsplit] at hend
        simp only [depth] at hend hpre
        have hmid : depth mid = 0 := by omega
        have hfirst : (Call.open_ rc).exec true RandomState.initial
            = .returned { random_refcount := 1, calls := [LibCall.sodium_init] } := by
          rw [Call.exec]
          exact random_open_of_zero rc _ rfl hrc
        have hmiddle := runCalls_positive mid
          { random_refcount := 1, calls := [LibCall.sodium_init] } (by
            intro k hk
            have hk2 := hpos (k + 1) (by omega) (by omega)
            have ht : (Call.open_ rc :: (mid ++ [Call.close])).take (k + 1)
                = Call.open_ rc :: mid.take k := by
              simp [List.take_append_of_le_length hk]
            rw [ht] at hk2
            simp only [depth] at hk2
            dsimp only
            omega)
        have hone : ((1 : Nat) : Int) + depth mid = 1 := by rw [hmid]; rfl
        dsimp only at hmiddle
        rw [hone] at hmiddle
        have hlast : Call.close.exec true
              { random_refcount := (1 : Int).toNat, calls := [LibCall.sodium_init] }
            = .returned { random_refcount := 0,
                          calls := [LibCall.sodium_init, LibCall.randombytes_close] } := by
          rw [Call.exec]
          exact random_close_of_one _ rfl
        refine ⟨{ random_refcount := 0,
                  calls := [LibCall.sodium_init, LibCall.randombytes_close] }, ?_,
                rfl, rfl, by simp [initRuns], by simp [teardownRuns]⟩
        rw [runCalls_cons_returned _ _ _ _ hfirst,
          runCalls_append_returned _ _ _ _ hmiddle,
          runCalls_cons_returned _ _ _ _ hlast, runCalls]

theorem init_and_teardown_once_per_session_witness :
    ∃ s, runCalls true [Call.open_ 0, Call.open_ 1, Call.close, Call.close]
        RandomState.initial = .returned s ∧
      s.random_refcount = 0 ∧
      s.calls = [LibCall.sodium_init, LibCall.randombytes_close] ∧
      initRuns s = 1 ∧ teardownRuns s = 1 :=
  init_and_teardown_once_per_session [Call.open_ 0, Call.open_ 1, Call.close, Call.close]
    (by simp)
    (by intro rc h; simp at h; rcases h with h | h <;> simp [h])
    (by simp [depth])
    (by
      intro k h0 hk
      simp only [List.length_cons, List.length_nil] at hk
      interval_cases k <;> simp [depth])

/-! ### Request endpoint -/

theorem next_writable_at_cursor (ps : PipeSet) (hc : ps.cursor < ps.peers.length)
    (hw : ps.accepts_at ps.cursor = true) :
    ps.next_writable
      = some (ps.cursor, { ps with cursor := (ps.cursor + 1) % ps.peers.length }) := by
  obtain ⟨m, hm⟩ : ∃ m, ps.peers.length = m + 1 := ⟨ps.peers.length - 1, by omega⟩
  have hmod : ps.cursor % (m + 1) = ps.cursor := Nat.mod_eq_of_lt (by omega)
  unfold PipeSet.next_writable
  simp only [hm, List.range_succ_eq_map, List.find?_cons, Nat.add_zero, hmod, hw]

theorem next_writable_sound (ps ps1 : PipeSet) (i : Nat)
    (h : ps.next_writable = some (i, ps1)) :
    ps1.peers = ps.peers ∧ i < ps.peers.length ∧ ps.accepts_at i = true := by
  unfold PipeSet.next_writable at h
  cases hf : (List.range ps.peers.length).find?
      (fun off => ps.accepts_at ((ps.cursor + off) % ps.peers.length)) with
  | none => simp [hf] at h
  | some off =>
    simp only [hf, Option.some.injEq, Prod.mk.injEq] at h
    obtain ⟨hi, hps⟩ := h
    have hmem := List.mem_of_find?_eq_some hf
    have hp := List.find?_some hf
    simp only [List.mem_range] at hmem
    refine ⟨by rw [← hps], ?_, ?_⟩
    · rw [← hi]
      exact Nat.mod_lt _ (by omega)
    · rw [← hi]
      simpa using hp

theorem find_of_nodup (peers : List Peer) (hnd : (peers.map Peer.identity).Nodup)
    (i : Nat) (p : Peer) (hp : peers[i]? = some p) :
    PipeSet.find p.identity peers = some i := by
  induction peers generalizing i with
  | nil => simp at hp
  | cons q qs ih =>
    simp only [List.map_cons, List.nodup_cons] at hnd
    cases i with
    | zero =>
      simp only [List.getElem?_cons_zero, Option.some.injEq] at hp
      simp [PipeSet.find, hp]
    | succ i =>
      simp only [List.getElem?_cons_succ] at hp
      have hmem : p.identity ∈ qs.map Peer.identity :=
        List.mem_map.mpr ⟨p, List.getElem?_mem hp, rfl⟩
      have hne : q.identity ≠ p.identity := fun h => hnd.1 (h ▸ hmem)
      simp [PipeSet.find, hne, ih hnd.2 i hp]

theorem send_eq (e : RequestEndpoint) (message : Message) (i : Nat) (ps1 : PipeSet)
    (p : Peer) (hphase : e.phase = Phase.ReadyToSend)
    (hsel : e.pipes.next_writable = some (i, ps1)) (hp : e.pipes.peers[i]? = some p) :
    e.send message
      = (.ok (),
          { pipes := { peers := e.pipes.peers.set i (p.push (delimiter :: message)),
                       cursor := ps1.cursor },
            phase := Phase.AwaitingReply,
            last_peer := p.identity }) := by
  have hs := next_writable_sound e.pipes ps1 i hsel
  unfold RequestEndpoint.send
  simp only [hphase, hsel, hs.1, hp]

theorem recv_eq (e : RequestEndpoint) (i : Nat) (p : Peer) (body : Message)
    (rest : List Frame)
    (hphase : e.phase = Phase.AwaitingReply)
    (hnd : (e.pipes.peers.map Peer.identity).Nodup)
    (hp : e.pipes.peers[i]? = some p) (hid : p.identity = e.last_peer)
    (hact : p.state = PeerState.Active)
    (hin : take_message p.pipe.inbound = some (delimiter :: body, rest)) :
    e.recv
      = (.ok body,
          { pipes :=
              { peers := (e.pipes.peers.map
                  (fun q => if q.identity = e.last_peer then q else q.discard_inbound)).set i
                    { p with pipe := { p.pipe with inbound := rest } },
                cursor := e.pipes.cursor },
            phase := Phase.ReadyToSend,
            last_peer := e.last_peer }) := by
  have hp1 : (e.pipes.peers.map
      (fun q => if q.identity = e.last_peer then q else q.discard_inbound))[i]? = some p := by
    simp [List.getElem?_map, hp, hid]
  have hids : (e.pipes.peers.map
      (fun q => if q.identity = e.last_peer then q else q.discard_inbound)).map Peer.identity
      = e.pipes.peers.map Peer.identity := by
    rw [List.map_map]
    apply List.map_congr_left
    intro q _
    by_cases hq : q.identity = e.last_peer <;> simp [hq, Peer.discard_inbound]
  have hfind := find_of_nodup _ (hids ▸ hnd) i p hp1
  rw [hid] at hfind
  unfold RequestEndpoint.recv
  simp only [hphase, hfind, hp1, hact, hin, delimiter]
  simp

theorem take_message_append (m : Message) (rest : List Frame)
    (h : well_formed m = true) : take_message (m ++ rest) = some (m, rest) := by
  induction m with
  | nil => simp [well_formed] at h
  | cons f fs ih =>
    cases fs with
    | nil =>
      simp only [well_formed, Bool.not_eq_true'] at h
      simp [take_message, h]
    | cons g gs =>
      simp only [well_formed, Bool.and_eq_true] at h
      simp only [List.cons_append] at ih ⊢
      rw [take_message, if_pos h.1, ih h.2]

theorem take_message_reply (reply : Message) (h : well_formed reply = true) :
    take_message (delimiter :: reply) = some (delimiter :: reply, []) := by
  have := take_message_append reply [] h
  simp only [List.append_nil] at this
  simp [take_message, delimiter, this]

theorem map_identity_set (peers : List Peer) (i : Nat) (p q : Peer)
    (hp : peers[i]? = some p) (hq : q.identity = p.identity) :
    (peers.set i q).map Peer.identity = peers.map Peer.identity := by
  apply List.ext_getElem?
  intro j
  simp only [List.getElem?_map, List.getElem?_set]
  by_cases hij : i = j
  · subst hij
    have hlt : i < peers.length := (List.getElem?_eq_some.mp hp).1
    simp [hlt, hp, hq]
  · simp [hij]

theorem deliver_props (e : RequestEndpoint) (i : Nat) (frames : List Frame) :
    (e.deliver i frames).phase = e.phase ∧
    (e.deliver i frames).last_peer = e.last_peer ∧
    (e.deliver i frames).pipes.cursor = e.pipes.cursor ∧
    (e.deliver i frames).pipes.peers.map Peer.identity = e.pipes.peers.map Peer.identity ∧
    (∀ j, j ≠ i → (e.deliver i frames).pipes.peers[j]? = e.pipes.peers[j]?) ∧
    (∀ p, e.pipes.peers[i]? = some p →
      (e.deliver i frames).pipes.peers[i]? = some (p.arrive frames)) := by
  unfold RequestEndpoint.deliver
  cases hp : e.pipes.peers[i]? with
  | none => simp
  | some p =>
    have hlt : i < e.pipes.peers.length := (List.getElem?_eq_some.mp hp).1
    refine ⟨rfl, rfl, rfl, map_identity_set _ i p _ hp rfl, ?_, ?_⟩
    · intro j hj
      simp [List.getElem?_set, Ne.symm hj]
    · intro q hq
      cases hq
      simp [List.getElem?_set, hlt]

theorem deliver_all_props (i : Nat) (arrivals : List (Nat × List Frame))
    (hothers : ∀ a ∈ arrivals, a.1 ≠ i) (e : RequestEndpoint) :
    (e.deliver_all arrivals).phase = e.phase ∧
    (e.deliver_all arrivals).last_peer = e.last_peer ∧
    (e.deliver_all arrivals).pipes.cursor = e.pipes.cursor ∧
    (e.deliver_all arrivals).pipes.peers.map Peer.identity
      = e.pipes.peers.map Peer.identity ∧
    (e.deliver_all arrivals).pipes.peers[i]? = e.pipes.peers[i]? := by
  induction arrivals generalizing e with
  | nil => simp [RequestEndpoint.deliver_all]
  | cons a as ih =>
    have ha : a.1 ≠ i := hothers a (by simp)
    have hrest := ih (fun b hb => hothers b (by simp [hb])) (e.deliver a.1 a.2)
    have hd := deliver_props e a.1 a.2
    simp only [RequestEndpoint.deliver_all, List.foldl_cons] at hrest ⊢
    refine ⟨hrest.1.trans hd.1, hrest.2.1.trans hd.2.1, hrest.2.2.1.trans hd.2.2.1,
      hrest.2.2.2.1.trans hd.2.2.2.1, hrest.2.2.2.2.trans (hd.2.2.2.2.1 i (Ne.symm ha))⟩

theorem exchange_step (e : RequestEndpoint) (t : Nat) (p : Peer) (request reply : Message)
    (hphase : e.phase = Phase.ReadyToSend)
    (hnd : (e.pipes.peers.map Peer.identity).Nodup)
    (hcur : e.pipes.cursor = t) (hp : e.pipes.peers[t]? = some p)
    (hidle : ∀ q ∈ e.pipes.peers, q.idle)
    (hreply : well_formed reply = true) :
    e.exchange t request reply
      = some { pipes := { peers := e.pipes.peers.set t (p.push (delimiter :: request)),
                          cursor := (t + 1) % e.pipes.peers.length },
               phase := Phase.ReadyToSend,
               last_peer := p.identity } := by
  have hlt : t < e.pipes.peers.length := (List.getElem?_eq_some.mp hp).1
  have hpi := hidle p (List.getElem?_mem hp)
  have hacc : e.pipes.accepts_at e.pipes.cursor = true := by
    simp [PipeSet.accepts_at, hcur, hp, hpi.1]
  have hsel := next_writable_at_cursor e.pipes (hcur ▸ hlt) hacc
  rw [hcur] at hsel
  have hsend := send_eq e request t _ p hphase hsel hp
  generalize he1 : ({ pipes := { peers := e.pipes.peers.set t (p.push (delimiter :: request)),
                                 cursor := (t + 1) % e.pipes.peers.length },
                      phase := Phase.AwaitingReply,
                      last_peer := p.identity } : RequestEndpoint) = e1 at hsend
  have h1p : e1.pipes.peers[t]? = some (p.push (delimiter :: request)) := by
    rw [← he1]
    simp [List.getElem?_set, hlt]
  have hd := deliver_props e1 t (delimiter :: reply)
  generalize he2 : e1.deliver t (delimiter :: reply) = e2 at hd
  have h2p := hd.2.2.2.2.2 _ h1p
  have h2ids : e2.pipes.peers.map Peer.identity = e.pipes.peers.map Peer.identity := by
    rw [hd.2.2.2.1, ← he1]
    exact map_identity_set _ t p _ hp rfl
  have h2last : e2.last_peer = p.identity := by rw [hd.2.1, ← he1]
  have h2phase : e2.phase = Phase.AwaitingReply := by rw [hd.1, ← he1]
  have h2cur : e2.pipes.cursor = (t + 1) % e.pipes.peers.length := by
    rw [hd.2.2.1, ← he1]
  have hrecv := recv_eq e2 t ((p.push (delimiter :: request)).arrive (delimiter :: reply))
    reply [] h2phase (h2ids ▸ hnd) h2p (by simp [Peer.arrive, Peer.push, h2last])
    (by simp [Peer.arrive, Peer.push, hpi.2.1])
    (by simp [Peer.arrive, Peer.push, hpi.2.2, take_message_reply reply hreply])
  have hpeers : (e2.pipes.peers.map
        (fun q => if q.identity = e2.last_peer then q else q.discard_inbound)).set t
          { (p.push (delimiter :: request)).arrive (delimiter :: reply) with
            pipe := { ((p.push (delimiter :: request)).arrive (delimiter :: reply)).pipe with
                      inbound := [] } }
      = e.pipes.peers.set t (p.push (delimiter :: request)) := by
    apply List.ext_getElem?
    intro j
    by_cases hj : t = j
    · subst hj
      have hl2 : t < e2.pipes.peers.length := (List.getElem?_eq_some.mp h2p).1
      simp [List.getElem?_set, hl2, hlt, Peer.arrive, Peer.push, hpi.2.2]
    · have hj2 : e2.pipes.peers[j]? = e.pipes.peers[j]? := by
        rw [hd.2.2.2.2.1 j (Ne.symm hj), ← he1]
        simp [List.getElem?_set, hj]
      simp only [List.getElem?_set, hj, if_false, List.getElem?_map, hj2]
      cases hq : e.pipes.peers[j]? with
      | none => rfl
      | some q =>
        have hqi := hidle q (List.getElem?_mem hq)
        have hdq : q.discard_inbound = q := by
          cases q with
          | mk qid qpipe qstate =>
            cases qpipe with
            | mk qo qi qr =>
              simp only [Peer.idle] at hqi
              simp [Peer.discard_inbound, hqi.2.2]
        simp [hdq]
  unfold RequestEndpoint.exchange
  simp only [hsend, he2, hrecv, if_true, h2cur]
  simp only at hpeers
  rw [hpeers, h2last]

theorem exchanges_run (msgs : List (Message × Message)) (t : Nat) (e : RequestEndpoint)
    (hphase : e.phase = Phase.ReadyToSend)
    (hnd : (e.pipes.peers.map Peer.identity).Nodup)
    (hcur : msgs ≠ [] → e.pipes.cursor = t)
    (hlen : t + msgs.length ≤ e.pipes.peers.length)
    (hidle : ∀ q ∈ e.pipes.peers, q.idle)
    (hwf : ∀ m ∈ msgs, well_formed m.2 = true) :
    ∃ e1, e.exchanges t msgs = some e1 ∧
      e1.phase = Phase.ReadyToSend ∧
      e1.pipes.peers.length = e.pipes.peers.length ∧
      (∀ j, j < t ∨ t + msgs.length ≤ j → e1.pipes.peers[j]? = e.pipes.peers[j]?) ∧
      (∀ k m, msgs[k]? = some m →
        ∃ q, e.pipes.peers[t + k]? = some q ∧
          e1.pipes.peers[t + k]? = some (q.push (delimiter :: m.1))) := by
  induction msgs generalizing t e with
  | nil =>
    exact ⟨e, rfl, hphase, rfl, fun _ _ => rfl, fun k m h => by simp at h⟩
  | cons m rest ih =>
    obtain ⟨request, reply⟩ := m
    simp only [List.length_cons] at hlen
    have hlt : t < e.pipes.peers.length := by omega
    have hc := hcur (by simp)
    obtain ⟨p, hp⟩ : ∃ p, e.pipes.peers[t]? = some p :=
      ⟨_, List.getElem?_eq_getElem hlt⟩
    have hpi := hidle p (List.getElem?_mem hp)
    have hstep := exchange_step e t p request reply hphase hnd hc hp hidle
      (hwf (request, reply) (by simp))
    generalize he1 : ({ pipes := { peers := e.pipes.peers.set t (p.push (delimiter :: request)),
                                   cursor := (t + 1) % e.pipes.peers.length },
                        phase := Phase.ReadyToSend,
                        last_peer := p.identity } : RequestEndpoint) = e1 at hstep
    have h1peers : e1.pipes.peers = e.pipes.peers.set t (p.push (delimiter :: request)) := by
      rw [← he1]
    have h1cur : e1.pipes.cursor = (t + 1) % e.pipes.peers.length := by rw [← he1]
    have h1phase : e1.phase = Phase.ReadyToSend := by rw [← he1]
    have h1len : e1.pipes.peers.length = e.pipes.peers.length := by
      rw [h1peers, List.length_set]
    obtain ⟨e2, hrun, h2phase, h2len, h2same, h2new⟩ := ih (t + 1) e1 h1phase
      (by rw [h1peers, map_identity_set _ t p (p.push (delimiter :: request)) hp rfl]
          exact hnd)
      (by
        intro hne
        have : 1 ≤ rest.length := List.length_pos.mpr hne
        rw [h1cur]
        exact Nat.mod_eq_of_lt (by omega))
      (by rw [h1len]; omega)
      (by
        intro q hq
        rw [h1peers] at hq
        rcases List.mem_or_eq_of_mem_set hq with hq | hq
        · exact hidle q hq
        · subst hq
          exact ⟨by simpa [Peer.accepts_write, Peer.push] using hpi.1,
            by simpa [Peer.push] using hpi.2.1, by simpa [Peer.push] using hpi.2.2⟩)
      (fun m hm => hwf m (by simp [hm]))
    refine ⟨e2, ?_, h2phase, h2len.trans h1len, ?_, ?_⟩
    · simp only [RequestEndpoint.exchanges, hstep, hrun]
    · intro j hj
      simp only [List.length_cons] at hj
      rw [h2same j (by omega), h1peers]
      have : t ≠ j := by omega
      simp [List.getElem?_set, this]
    · intro k m hm
      cases k with
      | zero =>
        simp only [List.getElem?_cons_zero, Option.some.injEq] at hm
        subst hm
        refine ⟨p, hp, ?_⟩
        rw [Nat.add_zero, h2same t (by omega), h1peers]
        simp [List.getElem?_set, hlt]
      | succ k =>
        simp only [List.getElem?_cons_succ] at hm
        obtain ⟨q, hq1, hq2⟩ := h2new k m hm
        have hidx : t + (k + 1) = t + 1 + k := by omega
        refine ⟨q, ?_, by rw [hidx]; exact hq2⟩
        rw [hidx, ← hq1, h1peers]
        have : t ≠ t + 1 + k := by omega
        simp [List.getElem?_set, this]

theorem attach_all_eq (ids : List Identity) (e : RequestEndpoint) :
    e.attach_all ids
      = { e with pipes := { peers := e.pipes.peers ++ ids.map Peer.connected,
                            cursor := e.pipes.cursor } } := by
  induction ids generalizing e with
  | nil => simp [RequestEndpoint.attach_all]
  | cons id ids ih =>
    have := ih (e.attach (Peer.connected id))
    simp only [RequestEndpoint.attach_all, List.foldl_cons] at this ⊢
    rw [this]
    simp [RequestEndpoint.attach, PipeSet.attach]

/-- With pairwise distinct identities, each reply coming from the peer whose turn it is:
the exchanges all succeed, and afterwards the pipe of the `i`-th peer holds exactly the
delimiter and the `i`-th request. -/
theorem exchanges_complete_in_order (ids : List Identity) (msgs : List (Message × Message))
    (hnd : ids.Nodup) (hlen : msgs.length = ids.length)
    (hwf : ∀ m ∈ msgs, well_formed m.2 = true) :
    ∃ e1, (RequestEndpoint.new.attach_all ids).exchanges 0 msgs = some e1 ∧
      e1.phase = Phase.ReadyToSend ∧
      e1.pipes.peers.length = ids.length ∧
      ∀ (i : Nat) (id : Identity) (m : Message × Message),
        ids[i]? = some id → msgs[i]? = some m →
        ∃ q : Peer, e1.pipes.peers[i]? = some q ∧ q.identity = id ∧
          q.pipe.outbound = delimiter :: m.1 ∧ q.pipe.inbound = [] := by
  have he0 := attach_all_eq ids RequestEndpoint.new
  generalize RequestEndpoint.new.attach_all ids = e0 at he0
  have hpeers : e0.pipes.peers = ids.map Peer.connected := by
    rw [he0]
    simp [RequestEndpoint.new, PipeSet.empty]
  have hcur : e0.pipes.cursor = 0 := by rw [he0]; rfl
  have hphase : e0.phase = Phase.ReadyToSend := by rw [he0]; rfl
  have hids : e0.pipes.peers.map Peer.identity = ids := by
    rw [hpeers, List.map_map]
    apply List.ext_getElem?
    intro n
    simp only [List.getElem?_map]
    cases ids[n]? <;> simp [Peer.connected]
  have hl : e0.pipes.peers.length = ids.length := by rw [hpeers, List.length_map]
  obtain ⟨e1, hrun, h1phase, h1len, _, h1new⟩ := exchanges_run msgs 0 e0 hphase
    (hids ▸ hnd) (fun _ => hcur) (by omega)
    (by
      intro q hq
      rw [hpeers] at hq
      obtain ⟨id, _, rfl⟩ := List.mem_map.mp hq
      exact ⟨rfl, rfl, rfl⟩)
    hwf
  refine ⟨e1, hrun, h1phase, h1len.trans hl, ?_⟩
  intro i id m hid hm
  obtain ⟨q0, hq0, hq1⟩ := h1new i m hm
  rw [Nat.zero_add] at hq0 hq1
  rw [hpeers, List.getElem?_map, hid] at hq0
  simp only [Option.map_some', Option.some.injEq] at hq0
  subst hq0
  exact ⟨_, hq1, rfl, rfl, rfl⟩

/-- With pairwise distinct identities and no unread frames on the selected peer: when
`send` selects the peer at index `i`, then whatever frames arrive from peers at other
indices before that peer's reply, the next `recv` returns exactly the reply of peer `i`,
the endpoint is ready to send again, and every other peer's unread frames have been
discarded. -/
theorem recv_reply_of_distinct (e : RequestEndpoint) (request reply : Message)
    (i : Nat) (ps1 : PipeSet) (p : Peer) (arrivals : List (Nat × List Frame))
    (hphase : e.phase = Phase.ReadyToSend)
    (hnd : (e.pipes.peers.map Peer.identity).Nodup)
    (hsel : e.pipes.next_writable = some (i, ps1))
    (hp : e.pipes.peers[i]? = some p)
    (hact : p.state = PeerState.Active)
    (hempty : p.pipe.inbound = [])
    (hothers : ∀ a ∈ arrivals, a.1 ≠ i)
    (hreply : well_formed reply = true) :
    ∃ e1 e3,
      e.send request = (.ok (), e1) ∧
      e1.last_peer = p.identity ∧
      ((e1.deliver_all arrivals).deliver i (delimiter :: reply)).recv = (.ok reply, e3) ∧
      e3.phase = Phase.ReadyToSend ∧
      (∀ j q, j ≠ i → e3.pipes.peers[j]? = some q → q.pipe.inbound = []) ∧
      (∀ q, e3.pipes.peers[i]? = some q → q.pipe.inbound = []) := by
  have hsend := send_eq e request i ps1 p hphase hsel hp
  have hlt : i < e.pipes.peers.length := (List.getElem?_eq_some.mp hp).1
  generalize he1 : ({ pipes := { peers := e.pipes.peers.set i (p.push (delimiter :: request)),
                                 cursor := ps1.cursor },
                      phase := Phase.AwaitingReply,
                      last_peer := p.identity } : RequestEndpoint) = e1 at hsend
  have h1phase : e1.phase = Phase.AwaitingReply := by rw [← he1]
  have h1last : e1.last_peer = p.identity := by rw [← he1]
  have h1ids : e1.pipes.peers.map Peer.identity = e.pipes.peers.map Peer.identity := by
    rw [← he1]
    exact map_identity_set _ i p _ hp rfl
  have h1p : e1.pipes.peers[i]? = some (p.push (delimiter :: request)) := by
    rw [← he1]
    simp [List.getElem?_set, hlt]
  have ha := deliver_all_props i arrivals hothers e1
  have hd := deliver_props (e1.deliver_all arrivals) i (delimiter :: reply)
  generalize he2 : (e1.deliver_all arrivals).deliver i (delimiter :: reply) = e2 at hd
  have h2p : e2.pipes.peers[i]?
      = some ((p.push (delimiter :: request)).arrive (delimiter :: reply)) :=
    hd.2.2.2.2.2 _ (ha.2.2.2.2.trans h1p)
  have h2ids : e2.pipes.peers.map Peer.identity = e.pipes.peers.map Peer.identity :=
    hd.2.2.2.1.trans (ha.2.2.2.1.trans h1ids)
  have h2last : e2.last_peer = p.identity := hd.2.1.trans (ha.2.1.trans h1last)
  have h2phase : e2.phase = Phase.AwaitingReply := hd.1.trans (ha.1.trans h1phase)
  have hrecv := recv_eq e2 i ((p.push (delimiter :: request)).arrive (delimiter :: reply))
    reply [] h2phase (h2ids ▸ hnd) h2p (by simp [Peer.arrive, Peer.push, h2last])
    (by simp [Peer.arrive, Peer.push, hact])
    (by simp [Peer.arrive, Peer.push, hempty, take_message_reply reply hreply])
  refine ⟨e1, _, hsend, h1last, by rw [he2]; exact hrecv, rfl, ?_, ?_⟩
  · intro j q hj hq
    simp only [List.getElem?_set, Ne.symm hj, if_false, List.getElem?_map] at hq
    cases hq0 : e2.pipes.peers[j]? with
    | none => simp [hq0] at hq
    | some q0 =>
      simp only [hq0, Option.map_some', Option.some.injEq] at hq
      have hne : q0.identity ≠ e2.last_peer := by
        intro hcontra
        have hf1 := find_of_nodup e2.pipes.peers (h2ids ▸ hnd) j q0 hq0
        have hf2 := find_of_nodup e2.pipes.peers (h2ids ▸ hnd) i _ h2p
        simp only [Peer.arrive, Peer.push] at hf2
        rw [hcontra, h2last] at hf1
        rw [hf1] at hf2
        exact hj (Option.some.inj hf2)
      rw [if_neg hne] at hq
      rw [← hq]
      rfl
  · intro q hq
    have hlen : i < (e2.pipes.peers.map
        (fun q => if q.identity = e2.last_peer then q else q.discard_inbound)).length := by
      rw [List.length_map]
      exact (List.getElem?_eq_some.mp h2p).1
    simp only [List.getElem?_set, if_true, hlen, Option.some.injEq] at hq
    rw [← hq]

/-! ### Unbalanced release -/

/-- C17: `random_close` at reference count 0 leaves the count at `2^32 - 1` and calls
nothing in the crypto library (no teardown); the `random_open` that follows calls
nothing either (no initializer) and leaves the count at 0, not 1. -/
theorem unbalanced_close_wraps (calls : List LibCall) (rc : Int) :
    random_close true { random_refcount := 0, calls := calls }
      = .returned { random_refcount := 2 ^ 32 - 1, calls := calls } ∧
    random_open true rc { random_refcount := 2 ^ 32 - 1, calls := calls }
      = .returned { random_refcount := 0, calls := calls } ∧
    runCalls true [Call.close, Call.open_ rc] { random_refcount := 0, calls := calls }
      = .returned { random_refcount := 0, calls := calls } := by
  have hc : random_close true { random_refcount := 0, calls := calls }
      = .returned { random_refcount := 2 ^ 32 - 1, calls := calls } := by
    rw [random_close_eq]
    simp [UINT_MOD]
  have ho : random_open true rc { random_refcount := 2 ^ 32 - 1, calls := calls }
      = .returned { random_refcount := 0, calls := calls } := by
    rw [random_open_of_pos rc _ (by norm_num)]
    simp [UINT_MOD]
  refine ⟨hc, ho, ?_⟩
  rw [runCalls_cons_returned _ _ _ _ (show Call.close.exec true _ = _ from hc),
    runCalls_cons_returned _ _ _ _ (show (Call.open_ rc).exec true _ = _ from ho), runCalls]

/-! ### All 32 bits of a random identity -/

/-- C15: with a 4-byte `int` and draws ranging over `0 .. 2^31 - 1`, every 32-bit value
`v` is returned by `generate_random` for some pair of draws `(a, b)`: whenever the
generator yields `a` and then `b`, the result is `v`. -/
theorem generate_random_fills_32_bits (v : Nat) (hv : v < 2 ^ 32) :
    ∃ a b : Int, 0 ≤ a ∧ a < 2 ^ 31 ∧ 0 ≤ b ∧ b < 2 ^ 31 ∧
      (generate_random replay 4 [a, b]).1 = v ∧
      ∀ {σ : Type} (rand : σ → Int × σ) (s : σ),
        (rand s).1 = a → (rand (rand s).2).1 = b → (generate_random rand 4 s).1 = v := by
  have key : ∀ {σ : Type} (rand : σ → Int × σ) (s : σ),
      (rand s).1 = ((v % 2 ^ 31 : Nat) : Int) →
      (rand (rand s).2).1 = ((v / 2 ^ 31 : Nat) : Int) →
      (generate_random rand 4 s).1 = v := by
    intro σ rand s h1 h2
    have ha : to_uint32 (rand s).1 = v % 2 ^ 31 := by
      rw [h1, to_uint32_of_nonneg _ (by omega) (by omega)]
      omega
    have hb : to_uint32 (rand (rand s).2).1 = v / 2 ^ 31 := by
      rw [h2, to_uint32_of_nonneg _ (by omega) (by omega)]
      omega
    have hor := shl_or_eq_add (v % 2 ^ 31) (v / 2 ^ 31) (by omega)
    simp only [generate_random, ha, hb]
    show shl_uint32 (v / 2 ^ 31) 31 ||| v % 2 ^ 31 = v
    rw [hor]
    omega
  refine ⟨((v % 2 ^ 31 : Nat) : Int), ((v / 2 ^ 31 : Nat) : Int), by omega, by omega,
    by omega, by omega, ?_, fun rand s h1 h2 => key rand s h1 h2⟩
  exact key replay _ rfl rfl

theorem generate_random_fills_32_bits_witness :
    ∃ a b : Int, 0 ≤ a ∧ a < 2 ^ 31 ∧ 0 ≤ b ∧ b < 2 ^ 31 ∧
      (generate_random replay 4 [a, b]).1 = 4294967295 ∧
      ∀ {σ : Type} (rand : σ → Int × σ) (s : σ),
        (rand s).1 = a → (rand (rand s).2).1 = b →
          (generate_random rand 4 s).1 = 4294967295 :=
  generate_random_fills_32_bits 4294967295 (by norm_num)

/-! ### Agreement of the implementations -/

/-- Every two implementations other than the tile one give the same result and the same
counter; the shared result is also `v != d`, the test of the x86 branch. -/
theorem atomic_sub_agree_of_ne_tile (var1 var2 : Variant) (h1 : var1 ≠ Variant.TILE)
    (h2 : var2 ≠ Variant.TILE) (v d : Nat) (hv : v < INTEGER_MOD) (hd : d < INTEGER_MOD) :
    atomic_sub var1 { value := v } d = atomic_sub var2 { value := v } d ∧
    (atomic_sub var1 { value := v } d).1 = (v != d) := by
  rw [atomic_sub_eq_of_ne_tile var1 h1 v d hv hd, atomic_sub_eq_of_ne_tile var2 h2 v d hv hd]
  refine ⟨rfl, ?_⟩
  have h := usub_eq_zero_iff v d hv hd
  show (usub v d != 0) = (v != d)
  rw [Bool.eq_iff_iff]
  simp only [bne_iff_ne, ne_eq, h]

/-- C16: the tile implementation of `atomic_sub` does not agree with the others. On a
counter holding 1 decremented by 1 all eight leave the counter at 0; the x86, C++11 and
intrinsic branches (one for each of the three result expressions) return `false`, the
tile branch returns `true`. -/
theorem atomic_sub_tile_disagrees :
    atomic_sub Variant.X86 { value := 1 } 1 = (false, { value := 0 }) ∧
    atomic_sub Variant.CXX11 { value := 1 } 1 = (false, { value := 0 }) ∧
    atomic_sub Variant.INTRINSIC { value := 1 } 1 = (false, { value := 0 }) ∧
    atomic_sub Variant.TILE { value := 1 } 1 = (true, { value := 0 }) ∧
    (atomic_sub Variant.TILE { value := 1 } 1).1
      ≠ (atomic_sub Variant.INTRINSIC { value := 1 } 1).1 := by
  have hlt : (1 : Nat) < INTEGER_MOD := by unfold INTEGER_MOD; omega
  have h0 : usub 1 1 = 0 := by unfold usub INTEGER_MOD; omega
  have hx := atomic_sub_eq_of_ne_tile Variant.X86 (by decide) 1 1 hlt hlt
  have hc := atomic_sub_eq_of_ne_tile Variant.CXX11 (by decide) 1 1 hlt hlt
  have hi := atomic_sub_eq_of_ne_tile Variant.INTRINSIC (by decide) 1 1 hlt hlt
  have ht := atomic_sub_tile_eq 1 1 hlt hlt
  rw [h0] at hx hc hi ht
  rw [hx, hc, hi, ht]
  simp

/-! ### Framing -/

theorem frames_of_data (bodies : List (List Nat)) :
    (frames_of bodies).map Frame.data = bodies := by
  induction bodies with
  | nil => rfl
  | cons b bs ih =>
    cases bs with
    | nil => rfl
    | cons c cs =>
      rw [frames_of, List.map_cons, ih]

theorem frames_of_more (b : List Nat) (bs : List (List Nat)) :
    (frames_of (b :: bs)).map Frame.more = List.replicate bs.length true ++ [false] := by
  induction bs generalizing b with
  | nil => rfl
  | cons c cs ih =>
    rw [frames_of, List.map_cons, ih c]
    rfl

theorem well_formed_frames_of (b : List Nat) (bs : List (List Nat)) :
    well_formed (frames_of (b :: bs)) = true := by
  induction bs generalizing b with
  | nil => rfl
  | cons c cs ih =>
    have h := ih c
    cases cs with
    | nil => rfl
    | cons d ds =>
      rw [frames_of, frames_of, well_formed]
      rw [frames_of] at h
      simp only [Bool.true_and]
      exact h

theorem take_message_delimited (m : Message) (rest : List Frame)
    (h : well_formed m = true) :
    take_message (delimiter :: (m ++ rest)) = some (delimiter :: m, rest) := by
  rw [take_message, if_pos (by rfl), take_message_append m rest h]

/-- What `send` puts on the pipe: a request with body frames `b1..bN` (`N >= 1`), sent on
a ready endpoint whose `send` selects the peer at index `i`, appends to that peer's pipe
exactly the delimiter followed by `b1..bN` in order and leaves every other pipe alone;
the delimiter is empty and the more-flag is set on every frame but the last. -/
theorem send_frames_request (e : RequestEndpoint) (b : List Nat) (bs : List (List Nat))
    (i : Nat) (ps1 : PipeSet) (p : Peer)
    (hphase : e.phase = Phase.ReadyToSend)
    (hsel : e.pipes.next_writable = some (i, ps1))
    (hp : e.pipes.peers[i]? = some p) :
    ∃ (e1 : RequestEndpoint) (q : Peer),
      e.send (frames_of (b :: bs)) = (.ok (), e1) ∧
      e1.pipes.peers[i]? = some q ∧
      q.pipe.outbound = p.pipe.outbound ++ delimiter :: frames_of (b :: bs) ∧
      (∀ j, j ≠ i → e1.pipes.peers[j]? = e.pipes.peers[j]?) ∧
      (delimiter :: frames_of (b :: bs)).map Frame.data = [] :: b :: bs ∧
      (delimiter :: frames_of (b :: bs)).map Frame.more
        = List.replicate (bs.length + 1) true ++ [false] := by
  have hsend := send_eq e (frames_of (b :: bs)) i ps1 p hphase hsel hp
  have hlt : i < e.pipes.peers.length := (List.getElem?_eq_some.mp hp).1
  refine ⟨_, p.push (delimiter :: frames_of (b :: bs)), hsend, ?_, rfl, ?_, ?_, ?_⟩
  · simp [List.getElem?_set, hlt]
  · intro j hj
    simp [List.getElem?_set, Ne.symm hj]
  · rw [List.map_cons, frames_of_data]
    rfl
  · rw [List.map_cons, frames_of_more]
    rfl

/-- With pairwise distinct identities: while a reply is awaited from the peer at index
`i` and the frames waiting on its pipe begin with the empty delimiter followed by the
complete reply body `b1..bN`, `recv` returns exactly `b1..bN`, without the delimiter and
with the more-flag cleared on the last frame only, pops those frames from the pipe, and
the endpoint is ready to send again. -/
theorem deframing_of_distinct (e : RequestEndpoint) (b : List Nat) (bs : List (List Nat))
    (rest : List Frame) (i : Nat) (p : Peer)
    (hphase : e.phase = Phase.AwaitingReply)
    (hnd : (e.pipes.peers.map Peer.identity).Nodup)
    (hp : e.pipes.peers[i]? = some p) (hid : p.identity = e.last_peer)
    (hact : p.state = PeerState.Active)
    (hin : p.pipe.inbound = delimiter :: (frames_of (b :: bs) ++ rest)) :
    ∃ (e1 : RequestEndpoint) (q : Peer),
      e.recv = (.ok (frames_of (b :: bs)), e1) ∧
      e1.phase = Phase.ReadyToSend ∧
      e1.pipes.peers[i]? = some q ∧ q.pipe.inbound = rest ∧
      (frames_of (b :: bs)).map Frame.data = b :: bs ∧
      (frames_of (b :: bs)).map Frame.more = List.replicate bs.length true ++ [false] := by
  have htake := take_message_delimited (frames_of (b :: bs)) rest (well_formed_frames_of b bs)
  rw [← hin] at htake
  have hrecv := recv_eq e i p (frames_of (b :: bs)) rest hphase hnd hp hid hact htake
  have hlt : i < e.pipes.peers.length := (List.getElem?_eq_some.mp hp).1
  refine ⟨_, { p with pipe := { p.pipe with inbound := rest } }, hrecv, rfl, ?_, rfl,
    frames_of_data _, frames_of_more b bs⟩
  simp [List.getElem?_set, hlt]

/-! ### Lifecycle of the crypto library -/

theorem initialized_append_init (n : Nat) (calls : List LibCall) :
    initialized { random_refcount := n, calls := calls ++ [LibCall.sodium_init] } = true := by
  simp [initialized]

theorem initialized_append_close (n : Nat) (calls : List LibCall) :
    initialized { random_refcount := n, calls := calls ++ [LibCall.randombytes_close] }
      = false := by
  simp [initialized]

theorem runCalls_cons_aborted (c : Call) (cs : List Call) (s s1 : RandomState)
    (h : c.exec true s = .aborted s1) :
    runCalls true (c :: cs) s = .aborted s1 := by
  rw [runCalls, h]

/-- From a state in which the library is initialized exactly when the count is
positive, and while opens minus closes stays between 0 and `2^32 - 1`: a run of calls
returns if no `sodium_init` fails, and whenever it returns the count has followed opens
minus closes and the library is again initialized exactly when the count is positive. -/
theorem runCalls_lifecycle (cs : List Call) (s0 : RandomState)
    (hinv : initialized s0 = true ↔ 0 < s0.random_refcount)
    (hrange : ∀ k, k ≤ cs.length →
      0 ≤ (s0.random_refcount : Int) + depth (cs.take k) ∧
      (s0.random_refcount : Int) + depth (cs.take k) < 2 ^ 32) :
    (initsSucceed cs → ∃ s, runCalls true cs s0 = .returned s) ∧
    ∀ s, runCalls true cs s0 = .returned s →
      (s.random_refcount : Int) = (s0.random_refcount : Int) + depth cs ∧
      (initialized s = true ↔ 0 < s.random_refcount) := by
  induction cs generalizing s0 with
  | nil =>
    refine ⟨fun _ => ⟨s0, rfl⟩, ?_⟩
    intro s hs
    rw [runCalls] at hs
    cases hs
    exact ⟨by simp [depth], hinv⟩
  | cons c cs ih =>
    have h0 := hrange 0 (Nat.zero_le _)
    have h1 := hrange 1 (by simp)
    simp only [List.take_zero, depth, add_zero] at h0
    have hstep : ∀ s1 : RandomState, c.exec true s0 = .returned s1 →
        (s1.random_refcount : Int) = (s0.random_refcount : Int) + depth [c] →
        (initialized s1 = true ↔ 0 < s1.random_refcount) →
        (initsSucceed (c :: cs) → ∃ s, runCalls true (c :: cs) s0 = .returned s) ∧
        ∀ s, runCalls true (c :: cs) s0 = .returned s →
          (s.random_refcount : Int) = (s0.random_refcount : Int) + depth (c :: cs) ∧
          (initialized s = true ↔ 0 < s.random_refcount) := by
      intro s1 hexec hcount hinv1
      have hd : depth (c :: cs) = depth [c] + depth cs := by
        have : c :: cs = [c] ++ cs := rfl
        rw [this, depth_append]
      have hih := ih s1 hinv1 (by
        intro k hk
        have := hrange (k + 1) (by simpa using hk)
        have hd2 : depth ((c :: cs).take (k + 1)) = depth [c] + depth (cs.take k) := by
          have : (c :: cs).take (k + 1) = [c] ++ cs.take k := rfl
          rw [this, depth_append]
        rw [hd2] at this
        rw [hcount]
        omega)
      rw [runCalls_cons_returned _ _ _ _ hexec]
      refine ⟨fun hinit => hih.1 (fun rc hrc => hinit rc (List.mem_cons_of_mem _ hrc)), ?_⟩
      intro s hs
      obtain ⟨hc, hi⟩ := hih.2 s hs
      refine ⟨?_, hi⟩
      rw [hc, hcount, hd]
      omega
    cases c with
    | open_ rc =>
      simp only [List.take_succ_cons, List.take_zero, depth] at h1
      by_cases hz : s0.random_refcount = 0
      · by_cases hrc : rc = -1
        · subst hrc
          have hab : (Call.open_ (-1)).exec true s0
              = .aborted ⟨0, s0.calls ++ [LibCall.sodium_init]⟩ := by
            rw [Call.exec]
            exact random_open_abort s0 hz
          rw [runCalls_cons_aborted _ _ _ _ hab]
          refine ⟨fun hinit => absurd rfl (hinit (-1) (by simp)), ?_⟩
          intro s hs
          cases hs
        · apply hstep _ (by rw [Call.exec]; exact random_open_of_zero rc s0 hz hrc)
          · simp [depth, hz]
          · rw [initialized_append_init]
            simp
      · have hmod : (s0.random_refcount + 1) % UINT_MOD = s0.random_refcount + 1 := by
          unfold UINT_MOD; omega
        apply hstep { random_refcount := s0.random_refcount + 1, calls := s0.calls }
          (by rw [Call.exec, random_open_of_pos rc s0 hz, hmod])
        · simp only [depth]
          push_cast
          omega
        · have hi : initialized ⟨s0.random_refcount + 1, s0.calls⟩ = initialized s0 := rfl
          rw [hi, hinv]
          simp only [Nat.succ_pos, iff_true]
          omega
    | close =>
      simp only [List.take_succ_cons, List.take_zero, depth] at h1
      by_cases ho : s0.random_refcount = 1
      · apply hstep _ (by rw [Call.exec]; exact random_close_of_one s0 ho)
        · simp [depth, ho]
        · rw [initialized_append_close]
          simp
      · have hpos : 2 ≤ s0.random_refcount := by omega
        apply hstep { random_refcount := s0.random_refcount - 1, calls := s0.calls }
          (by rw [Call.exec,
                random_close_of_gt_one s0 hpos (by unfold UINT_MOD; omega)])
        · simp only [depth]
          omega
        · have hi : initialized ⟨s0.random_refcount - 1, s0.calls⟩ = initialized s0 := rfl
          rw [hi, hinv]
          simp only
          omega

theorem depth_replicate_open (n : Nat) (rc : Int) :
    depth (List.replicate n (Call.open_ rc)) = n := by
  induction n with
  | zero => rfl
  | succ n ih =>
    rw [List.replicate_succ, depth, ih]
    push_cast
    omega

theorem runCalls_opens (n : Nat) (rc : Int) (hrc : rc ≠ -1) (hn : n + 1 < 2 ^ 32) :
    runCalls true (List.replicate (n + 1) (Call.open_ rc)) RandomState.initial
      = .returned { random_refcount := n + 1, calls := [LibCall.sodium_init] } := by
  have hfirst : (Call.open_ rc).exec true RandomState.initial
      = .returned { random_refcount := 1, calls := [LibCall.sodium_init] } := by
    rw [Call.exec]
    exact random_open_of_zero rc _ rfl hrc
  have hrest := runCalls_positive (List.replicate n (Call.open_ rc))
    { random_refcount := 1, calls := [LibCall.sodium_init] } (by
      intro k _
      rw [List.take_replicate, depth_replicate_open]
      dsimp only
      have : min k n ≤ n := Nat.min_le_right k n
      push_cast
      omega)
  rw [depth_replicate_open] at hrest
  have hcount : (((1 : Nat) : Int) + (n : Int)).toNat = n + 1 := by omega
  dsimp only at hrest
  rw [hcount] at hrest
  rw [List.replicate_succ, runCalls_cons_returned _ _ _ _ hfirst, hrest]

theorem runCalls_opens_wrap (N : Nat) (hN : N = 2 ^ 32) :
    (∀ k, k ≤ (List.replicate N (Call.open_ 0)).length →
      0 ≤ depth ((List.replicate N (Call.open_ 0)).take k)) ∧
    depth (List.replicate N (Call.open_ 0)) = 2 ^ 32 ∧
    runCalls true (List.replicate N (Call.open_ 0)) RandomState.initial
      = .returned { random_refcount := 0, calls := [LibCall.sodium_init] } ∧
    initialized { random_refcount := 0, calls := [LibCall.sodium_init] } = true := by
  refine ⟨?_, ?_, ?_, initialized_append_init 0 []⟩
  · intro k _
    rw [List.take_replicate, depth_replicate_open]
    omega
  · rw [depth_replicate_open, hN]
    norm_cast
  · obtain ⟨n, rfl⟩ : ∃ n, N = n + 1 + 1 := ⟨N - 2, by omega⟩
    have hrun := runCalls_opens n 0 (by decide) (by omega)
    have hlast : (Call.open_ 0).exec true
          { random_refcount := n + 1, calls := [LibCall.sodium_init] }
        = .returned { random_refcount := 0, calls := [LibCall.sodium_init] } := by
      have hmod : (n + 1 + 1) % UINT_MOD = 0 := by
        unfold UINT_MOD; omega
      rw [Call.exec, random_open_of_pos 0 _ (Nat.succ_ne_zero n)]
      dsimp only
      rw [hmod]
    rw [List.replicate_succ', runCalls_append_returned _ _ _ _ hrun,
      runCalls_cons_returned _ _ _ _ hlast, runCalls]

/-- C14 as stated fails: `2^32` calls of `random_open` in a row form a sequence in which
no prefix has more closes than opens, and every call returns; opens minus closes is then
`2^32`, yet the reference count is 0 while the library is in the initialized state. -/
theorem refcount_wraps_after_two_pow_32_opens :
    (∀ k, k ≤ (List.replicate 4294967296 (Call.open_ 0)).length →
      0 ≤ depth ((List.replicate 4294967296 (Call.open_ 0)).take k)) ∧
    depth (List.replicate 4294967296 (Call.open_ 0)) = 2 ^ 32 ∧
    runCalls true (List.replicate 4294967296 (Call.open_ 0)) RandomState.initial
      = .returned { random_refcount := 0, calls := [LibCall.sodium_init] } ∧
    initialized { random_refcount := 0, calls := [LibCall.sodium_init] } = true :=
  runCalls_opens_wrap 4294967296 (by norm_num)

/-- C14, amended: for a sequence of `random_open` / `random_close` calls made from
process start in which no prefix has more closes than opens and fewer than `2^32` opens
are outstanding at any time: after each call that returns (every call does, unless a
`sodium_init` fails) the reference count equals opens minus closes and the crypto
library is in the initialized state if and only if the reference count is positive. -/
theorem lifecycle_invariant (cs : List Call)
    (hbal : ∀ k, k ≤ cs.length → 0 ≤ depth (cs.take k))
    (hbound : ∀ k, k ≤ cs.length → depth (cs.take k) < 2 ^ 32) :
    ∀ k, k ≤ cs.length →
      (initsSucceed (cs.take k) →
        ∃ s, runCalls true (cs.take k) RandomState.initial = .returned s) ∧
      ∀ s, runCalls true (cs.take k) RandomState.initial = .returned s →
        (s.random_refcount : Int) = depth (cs.take k) ∧
        (initialized s = true ↔ 0 < s.random_refcount) := by
  intro k hk
  have hrun := runCalls_lifecycle (cs.take k) RandomState.initial
    (by simp [initialized, RandomState.initial])
    (by
      intro j _
      have hj : min j k ≤ cs.length := le_trans (Nat.min_le_right j k) hk
      rw [List.take_take]
      have h1 := hbal (min j k) hj
      have h2 := hbound (min j k) hj
      simp only [RandomState.initial]
      push_cast
      omega)
  refine ⟨hrun.1, ?_⟩
  intro s hs
  obtain ⟨h2, h3⟩ := hrun.2 s hs
  refine ⟨?_, h3⟩
  rw [h2]
  simp [RandomState.initial]

theorem lifecycle_invariant_witness :
    (initsSucceed ([Call.open_ 0, Call.open_ 1, Call.close, Call.close].take 3) →
      ∃ s, runCalls true ([Call.open_ 0, Call.open_ 1, Call.close, Call.close].take 3)
        RandomState.initial = .returned s) ∧
    ∀ s, runCalls true ([Call.open_ 0, Call.open_ 1, Call.close, Call.close].take 3)
        RandomState.initial = .returned s →
      (s.random_refcount : Int)
        = depth ([Call.open_ 0, Call.open_ 1, Call.close, Call.close].take 3) ∧
      (initialized s = true ↔ 0 < s.random_refcount) :=
  lifecycle_invariant [Call.open_ 0, Call.open_ 1, Call.close, Call.close]
    (by
      intro k hk
      simp only [List.length_cons, List.length_nil] at hk
      interval_cases k <;> simp [depth])
    (by
      intro k hk
      simp only [List.length_cons, List.length_nil] at hk
      interval_cases k <;> simp [depth])
    3 (by simp)

/-! ### Calls made one after the other -/

theorem atomic_sub_counter (var : Variant) (v k : Nat) (hv : v < INTEGER_MOD)
    (hk : k < INTEGER_MOD) :
    (atomic_sub var { value := v } k).2 = { value := usub v k } := by
  by_cases h : var = Variant.TILE
  · subst h
    rw [atomic_sub_tile_eq v k hv hk]
  · rw [atomic_sub_eq_of_ne_tile var h v k hv hk]

/-- In every implementation, calls of `add` and `sub` made one after the other, in any
order, leave the counter at the initial value plus the sum of the changes, modulo
`2^32`. -/
theorem run_ops_final_value (var : Variant) (ops : List CounterOp) (v : Nat)
    (hv : v < 2 ^ 32) (hops : ∀ op ∈ ops, op.arg < 2 ^ 32) :
    ((run_ops var ops { value := { value := v } }).get : Int)
      = ((v : Int) + net_delta ops) % 2 ^ 32 := by
  induction ops generalizing v with
  | nil =>
    simp only [run_ops, net_delta, atomic_counter_t.get, atomic_get, add_zero]
    omega
  | cons op ops ih =>
    have hrest : ∀ o ∈ ops, o.arg < 2 ^ 32 := fun o ho => hops o (List.mem_cons_of_mem _ ho)
    have harg := hops op (List.mem_cons_self _ _)
    cases op with
    | add k =>
      simp only [CounterOp.arg] at harg
      have hstep : CounterOp.apply var { value := { value := v } } (CounterOp.add k)
          = { value := { value := (v + k) % 2 ^ 32 } } := by
        simp only [CounterOp.apply, atomic_counter_t.add, atomic_add_eq var v k hv harg,
          INTEGER_MOD]
      rw [run_ops, hstep, ih _ (Nat.mod_lt _ (by norm_num)) hrest]
      simp only [net_delta, CounterOp.delta]
      push_cast
      omega
    | sub k =>
      simp only [CounterOp.arg] at harg
      have hu : usub v k = (v + (2 ^ 32 - k)) % 2 ^ 32 := by
        unfold usub INTEGER_MOD
        omega
      have hstep : CounterOp.apply var { value := { value := v } } (CounterOp.sub k)
          = { value := { value := (v + (2 ^ 32 - k)) % 2 ^ 32 } } := by
        simp only [CounterOp.apply, atomic_counter_t.sub, atomic_sub_counter var v k hv harg,
          hu]
      rw [run_ops, hstep, ih _ (Nat.mod_lt _ (by norm_num)) hrest]
      simp only [net_delta, CounterOp.delta]
      push_cast
      omega

/-! ### Dispatch does not depend on what is received -/

end zmq
